import Mathlib

/-!
Verification of the deep-research-agent citation engine and draft/review loop.

Strings are modelled as `List Char`.  Python floats are modelled as exact
rationals.  `difflib.SequenceMatcher` (used by `calculate_similarity`) is
modelled faithfully for the regime in which its `autojunk` heuristic is
inactive, i.e. when the second sequence is shorter than 200 characters; all
theorems that depend on the matcher either carry that bound as a hypothesis
or evaluate it on concrete short strings.
-/

/-- Abbreviation for the string model. -/
abbrev Str := List Char

/-- Python `str.lower` restricted to ASCII (the only case mapping exercised
by the repository's data). -/
def toLowerCh (c : Char) : Char :=
  if 'A' ≤ c ∧ c ≤ 'Z' then Char.ofNat (c.toNat + 32) else c

/-- One cell test of `difflib`'s matching table: the characters at positions
`i` of `a` and `j` of `b` exist and are equal. -/
def cellMatch (a b : Str) (i j : Nat) : Bool :=
  match a[i]?, b[j]? with
  | some x, some y => x == y
  | _, _ => false

/-- Whether the cell `(i, j)` lies inside the window `[alo, ahi) × [blo, bhi)`
and its characters match. -/
def inCellB (a b : Str) (alo blo ahi bhi i j : Nat) : Bool :=
  decide (alo ≤ i) && decide (i < ahi) && decide (blo ≤ j) && decide (j < bhi) &&
    cellMatch a b i j

/-- The `j2len` dynamic program of `difflib.SequenceMatcher.find_longest_match`:
length of the longest common block ending at cell `(i, j)` inside the window. -/
def lcsuffix (a b : Str) (alo blo ahi bhi : Nat) : Nat → Nat → Nat
  | 0, j => if inCellB a b alo blo ahi bhi 0 j then 1 else 0
  | i+1, 0 => if inCellB a b alo blo ahi bhi (i+1) 0 then 1 else 0
  | i+1, j+1 =>
    if inCellB a b alo blo ahi bhi (i+1) (j+1) then
      if i + 1 = alo ∨ j + 1 = blo then 1
      else lcsuffix a b alo blo ahi bhi i j + 1
    else 0

/-- One update step of the best-block scan of `find_longest_match`: replace the
current best only on a strictly larger block, exactly like the `if k > bestsize`
test in `difflib`. -/
def flmStep (a b : Str) (alo blo ahi bhi : Nat) (best : Nat × Nat × Nat)
    (i j : Nat) : Nat × Nat × Nat :=
  let k := lcsuffix a b alo blo ahi bhi i j
  if best.2.2 < k then (i + 1 - k, j + 1 - k, k) else best

/-- `difflib.SequenceMatcher.find_longest_match` on the window
`a[alo:ahi]`, `b[blo:bhi]` with no junk: scan the cells in `(i, j)` order
keeping the first block of each new maximal size.  Returns
`(besti, bestj, bestsize)`. -/
def findLongestMatch (a b : Str) (alo ahi blo bhi : Nat) : Nat × Nat × Nat :=
  (List.range' alo (ahi - alo)).foldl
    (fun acc i =>
      (List.range' blo (bhi - blo)).foldl
        (fun acc2 j => flmStep a b alo blo ahi bhi acc2 i j) acc)
    (alo, blo, 0)

/-- Total size of the matching blocks produced by
`SequenceMatcher.get_matching_blocks`: recursively take the longest match of a
window and recurse on the two remaining windows.  `fuel` dominates the window
sizes; `matchedTotal` is fuel-insensitive once `fuel` exceeds the combined
window size. -/
def matchedTotal (a b : Str) : Nat → Nat → Nat → Nat → Nat → Nat
  | 0, _, _, _, _ => 0
  | fuel+1, alo, ahi, blo, bhi =>
    let m := findLongestMatch a b alo ahi blo bhi
    if m.2.2 = 0 then 0
    else
      matchedTotal a b fuel alo m.1 blo m.2.1 + m.2.2 +
        matchedTotal a b fuel (m.1 + m.2.2) ahi (m.2.1 + m.2.2) bhi

/-- Sum of the matching block sizes over the whole strings. -/
def matched (a b : Str) : Nat :=
  matchedTotal a b (a.length + b.length + 1) 0 a.length 0 b.length

/-- `difflib`'s `_calculate_ratio`: `2.0 * M / T`, and `1.0` when both
sequences are empty.  Expressed with `mkRat` (which the kernel can evaluate);
`ratioQ_eq_div` below restates it as a division. -/
def ratioQ (a b : Str) : ℚ :=
  if a.length + b.length = 0 then 1
  else mkRat (2 * matched a b) (a.length + b.length)

/-- `deep_research_agent.utils.text_processing.calculate_similarity`:
`SequenceMatcher(None, text1.lower(), text2.lower()).ratio()`. -/
def calculate_similarity (text1 text2 : Str) : ℚ :=
  ratioQ (text1.map toLowerCh) (text2.map toLowerCh)

/-- Shorthand turning a Lean string literal into the `List Char` model. -/
def lit (s : String) : Str := s.toList

/-- Python `\s` for the ASCII whitespace the repository's data contains
(also the characters `str.strip` removes). -/
def isSpaceCh (c : Char) : Bool :=
  c == ' ' || c == '\t' || c == '\n' || c == '\r' || c == '\x0b' || c == '\x0c'

/-- Sentence-terminal punctuation of the resolver's split pattern
`(?<=[.!?])\s+`. -/
def isTermCh (c : Char) : Bool :=
  c == '.' || c == '!' || c == '?'

/-- ASCII decimal digit. -/
def isDigitCh (c : Char) : Bool :=
  48 ≤ c.toNat && c.toNat ≤ 57

/-- The decimal digit `d` (`d < 10`) as a character. -/
def digitCh (d : Nat) : Char :=
  Char.ofNat (48 + d)

/-- Decimal digits of `n`, most significant first, via repeated division;
`fuel` bounds the recursion and `n + 1` always suffices. -/
def natCharsF : Nat → Nat → List Char
  | 0, _ => []
  | fuel+1, n => if n < 10 then [digitCh n] else natCharsF fuel (n / 10) ++ [digitCh (n % 10)]

/-- Python `str(n)` for a natural number. -/
def natChars (n : Nat) : Str :=
  natCharsF (n + 1) n

/-- Python `str(i)` for an integer (years). -/
def intChars (i : Int) : Str :=
  if i < 0 then '-' :: natChars i.natAbs else natChars i.toNat

/-- Decimal value of a digit string (Python `int`), used to state that
`natChars` is injective. -/
def charsVal (s : Str) : Nat :=
  s.foldl (fun acc c => 10 * acc + (c.toNat - 48)) 0

/-- Python string `<=`: lexicographic comparison by code point with the
prefix rule. -/
def strLeB : Str → Str → Bool
  | [], _ => true
  | _ :: _, [] => false
  | a :: as, b :: bs =>
    if a.toNat < b.toNat then true
    else if b.toNat < a.toNat then false
    else strLeB as bs

/-- Python `str.strip()`. -/
def trimWs (s : Str) : Str :=
  ((s.dropWhile isSpaceCh).reverse.dropWhile isSpaceCh).reverse

/-- The similarity gate of the lexical resolver
(`CitationAgent.similarity_threshold = 0.6`). -/
def simThreshold : ℚ := mkRat 6 10

/-- A record of the lexical resolver's citation database
(`citation_agent.Citation`). -/
structure Citation where
  title : Str
  authors : List Str
  year : Int
  url : Str
  doi : Option Str
  content : Str
  citation_key : Str
  reference : Str
deriving DecidableEq

/-- A raw search result / source dict: absent keys are `none` and the
`dict.get` defaults of the source are applied where it reads them. -/
structure SearchResult where
  title : Option Str := none
  authors : Option (List Str) := none
  year : Option Int := none
  url : Option Str := none
  doi : Option Str := none
  content : Option Str := none
deriving DecidableEq

/-- `url.startswith(("http://", "https://"))`. -/
def validUrl (url : Str) : Bool :=
  (lit "http://").isPrefixOf url || (lit "https://").isPrefixOf url

/-- `CitationAgent._generate_citation_key`: `f"{authors[0]}_{year}"`.
Python raises `IndexError` on an empty author list; theorems that quantify
over inputs carry the corresponding non-emptiness hypothesis. -/
def citationKeyOf (authors : List Str) (year : Int) : Str :=
  authors.headD [] ++ '_' :: intChars year

/-- The style-specific author string of `CitationAgent._format_reference`. -/
def authorsStr (style : Str) (authors : List Str) : Str :=
  if style == lit "apa" then
    match authors with
    | a0 :: a1 :: a2 :: _ => a0 ++ lit ", " ++ a1 ++ lit ", & " ++ a2
    | [a0, a1] => a0 ++ lit " & " ++ a1
    | a0 :: _ => a0
    | [] => []
  else
    match authors with
    | a0 :: a1 :: a2 :: _ => a0 ++ lit ", " ++ a1 ++ lit ", and " ++ a2
    | [a0, a1] => a0 ++ lit " and " ++ a1
    | a0 :: _ => a0
    | [] => []

/-- The URL clause of `CitationAgent._format_reference`: a markdown link
repeating the URL, or the fixed placeholder. -/
def urlTextOf (url : Str) : Str :=
  if validUrl url then '[' :: url ++ ']' :: '(' :: url ++ [')']
  else lit "[No valid URL available]"

/-- Position (`list(db.keys()).index(key)`) of a key in the citation
database, modelled as an insertion-ordered association list: index of the
first entry with the key. -/
def dbFindIdx (db : List (Str × Citation)) (key : Str) : Option Nat :=
  match db with
  | [] => none
  | e :: rest => if e.1 == key then some 0 else (dbFindIdx rest key).map (fun i => i + 1)

/-- `CitationAgent._format_reference`: author string, year, quoted title and
URL clause behind a `[n]` marker, where `n` is the key's current registry
position, or the next free position when the key is not registered yet. -/
def formatReference (style : Str) (db : List (Str × Citation)) (title : Str)
    (authors : List Str) (year : Int) (url : Str) : Str :=
  let astr := authorsStr style authors
  let ut := urlTextOf url
  let key := citationKeyOf authors year
  let n := match dbFindIdx db key with
    | some i => i + 1
    | none => db.length + 1
  if style == lit "apa" then
    '[' :: natChars n ++ ']' :: ' ' :: astr ++ lit ". (" ++ intChars year ++
      lit "). " ++ title ++ lit ". " ++ ut
  else
    '[' :: natChars n ++ ']' :: ' ' :: astr ++ lit ". " ++ intChars year ++
      lit ". \"" ++ title ++ lit ".\" " ++ ut

/-- Python dict assignment `db[key] = c`: overwrite in place when the key
exists (its position is preserved), append otherwise. -/
def dbSet (db : List (Str × Citation)) (key : Str) (c : Citation) :
    List (Str × Citation) :=
  if db.any (fun e => e.1 == key) then
    db.map (fun e => if e.1 == key then (e.1, c) else e)
  else db ++ [(key, c)]

/-- Python dict lookup `db[key]`. -/
def dbGet (db : List (Str × Citation)) (key : Str) : Option Citation :=
  (db.find? (fun e => e.1 == key)).map (fun e => e.2)

/-- `CitationAgent._process_search_result`: apply the metadata defaults,
skip results whose content is empty or whitespace-only, blank out invalid
URLs, and store the formatted citation under its key.  `nowYear` stands for
`datetime.now().year`, the only external input. -/
def processSearchResult (style : Str) (nowYear : Int)
    (db : List (Str × Citation)) (r : SearchResult) : List (Str × Citation) :=
  let title := r.title.getD (lit "Untitled")
  let authors := r.authors.getD [lit "Unknown Author"]
  let year := r.year.getD nowYear
  let url0 := r.url.getD []
  let content := r.content.getD []
  if content.all isSpaceCh then db
  else
    let url := if validUrl url0 then url0 else []
    let key := citationKeyOf authors year
    let reference := formatReference style db title authors year url
    dbSet db key ⟨title, authors, year, url, r.doi, content, key, reference⟩

/-- The matching loop body of `CitationAgent._add_citations_to_content`:
the database entries whose content is within similarity threshold of the
sentence, in registry order. -/
def matchingEntries (db : List (Str × Citation)) (sentence : Str) :
    List (Str × Citation) :=
  db.filter (fun e => decide (simThreshold ≤ calculate_similarity sentence e.2.content))

/-- `re.split(r"(?<=[.!?])\s+", content)`: a split point is a maximal
whitespace run preceded by sentence-terminal punctuation.  `skipping` is
true while inside such a run; `prev` tracks the previous character of the
original string (only its terminal-punctuation status matters). -/
def splitAux : Bool → Char → Str → Str → List Str
  | _, _, cur, [] => [cur.reverse]
  | true, _, cur, c :: rest =>
    if isSpaceCh c then splitAux true c cur rest
    else splitAux false c (c :: cur) rest
  | false, prev, cur, c :: rest =>
    if isSpaceCh c && isTermCh prev then cur.reverse :: splitAux true c [] rest
    else splitAux false c (c :: cur) rest

/-- Sentence segmentation of the lexical resolver. -/
def splitSentences (content : Str) : List Str :=
  splitAux false ' ' [] content

/-- `CitationAgent._format_citation_group` as the code stands: sort the
matched citations by registry position, then render the one-based positions
of the enumeration of that sorted list (not the registry positions). -/
def formatCitationGroup (db : List (Str × Citation)) (citations : List Citation) : Str :=
  if citations.isEmpty then []
  else
    let sorted := List.insertionSort
      (fun x y : Citation =>
        (dbFindIdx db x.citation_key).getD db.length ≤
          (dbFindIdx db y.citation_key).getD db.length) citations
    let nums := (List.range sorted.length).map (fun i => natChars (i + 1))
    '[' :: List.intercalate [','] nums ++ [']']

/-- `matching_citations.sort(key=lambda x: x.year, reverse=True)`: stable
descending sort by year. -/
def sortYearDesc (citations : List Citation) : List Citation :=
  List.insertionSort (fun x y : Citation => y.year ≤ x.year) citations

/-- One sentence of `CitationAgent._add_citations_to_content`: collect the
matching entries, extend the referenced-key set (modelled as a list without
duplicates in first-use order), and append the bracket group when matches
exist. -/
def processSentence (db : List (Str × Citation)) (acc : List Str × List Str)
    (sentence : Str) : List Str × List Str :=
  let entries := matchingEntries db sentence
  let refKeys := entries.foldl
    (fun ks e => if ks.contains e.1 then ks else ks ++ [e.1]) acc.2
  if entries.isEmpty then (acc.1 ++ [sentence], refKeys)
  else
    (acc.1 ++ [sentence ++ ' ' :: formatCitationGroup db (sortYearDesc (entries.map (fun e => e.2)))],
     refKeys)

/-- `CitationAgent._add_citations_to_content`: split into sentences, process
each, and rejoin with single spaces.  Returns the rewritten content and the
referenced citation keys. -/
def addCitationsToContent (db : List (Str × Citation)) (content : Str) :
    Str × List Str :=
  let r := (splitSentences content).foldl (processSentence db) ([], [])
  (List.intercalate [' '] r.1, r.2)

/-- Result record of `CitationAgent.forward` (the timestamp metadata, an
external clock reading, is not modelled). -/
structure CForwardResult where
  content : Str
  citations : List Citation
  reference_list : List Str
deriving DecidableEq

/-- `CitationAgent.forward`: clear the database, process the search results,
add citations, keep only the referenced citations and sort their formatted
references lexicographically.  Python iterates the referenced-key `set` in
unspecified order; it is modelled in first-use order, which the sorted
reference list does not depend on. -/
def citationForward (content : Str) (results : List SearchResult)
    (style : Str) (nowYear : Int) : CForwardResult :=
  let db := results.foldl (processSearchResult style nowYear) []
  let r := addCitationsToContent db content
  let referenced := r.2.map (fun k => (dbGet db k).getD
    ⟨[], [], 0, [], none, [], [], []⟩)
  let referenceList := List.insertionSort
    (fun x y : Str => strLeB x y = true) (referenced.map (fun c => c.reference))
  ⟨r.1, referenced, referenceList⟩

/-- A source dict handed to `LLMCitationAgent.cite_text` (absent keys are
`none`; the year is the string Python's f-string interpolation renders). -/
structure LSource where
  authors : Option (List Str) := none
  year : Option Str := none
  title : Option Str := none
  url : Option Str := none
deriving DecidableEq

/-- An entry of the `citations` list `cite_text` builds: `id` is the integer
whose decimal rendering Python stores as the `id` string. -/
structure LCitation where
  id : Nat
  text : Str
  reference : Str
  url : Str
deriving DecidableEq

/-- Python `", ".join(authors)`. -/
def joinCommaSp (xs : List Str) : Str :=
  List.intercalate (lit ", ") xs

/-- The candidate citation list of `LLMCitationAgent.cite_text`: one record
per source index `i+1`, built from the source alone (never from the service
response), with the style-specific reference line. -/
def buildCandidates (sources : List LSource) (style : Str) : List LCitation :=
  sources.enum.map (fun e =>
    let authors := joinCommaSp (e.2.authors.getD [lit "Unknown Author"])
    let year := e.2.year.getD (lit "n.d.")
    let title := e.2.title.getD (lit "Untitled")
    let url := e.2.url.getD []
    let text := '[' :: natChars (e.1 + 1) ++ [']']
    let reference :=
      if url.isEmpty then
        if style == lit "apa" then
          authors ++ lit ". (" ++ year ++ lit "). " ++ title ++ lit "."
        else authors ++ lit ". " ++ year ++ lit ". \"" ++ title ++ lit ".\""
      else
        if style == lit "apa" then
          authors ++ lit ". (" ++ year ++ lit "). " ++ title ++ lit ". " ++ url
        else authors ++ lit ". " ++ year ++ lit ". \"" ++ title ++ lit ".\" " ++ url
    ⟨e.1 + 1, text, reference, url⟩)

/-- Group parser of the bracket-citation regex `\[(\d+(?:\s*,\s*\d+)*)\]`:
consume as many `\s*,\s*\d+` groups as parse, returning the collected
values and the rest of the input at the last successful group boundary. -/
def parseGroups : Nat → Str → List Nat → List Nat × Str
  | 0, s, acc => (acc, s)
  | fuel+1, s, acc =>
    match s.dropWhile isSpaceCh with
    | ',' :: s3 =>
      let s4 := (',' :: s3).drop 1
      let s5 := s4.dropWhile isSpaceCh
      let d := s5.takeWhile isDigitCh
      if d.isEmpty then (acc, s)
      else parseGroups fuel (s5.dropWhile isDigitCh) (acc ++ [charsVal d])
    | _ => (acc, s)

/-- Body of a bracket citation after its `[`: `\d+(?:\s*,\s*\d+)*\]`.
Returns the parsed numbers and the input after the `]`, or `none` when the
regex does not match here. -/
def parseBracketBody (s : Str) : Option (List Nat × Str) :=
  let d1 := s.takeWhile isDigitCh
  if d1.isEmpty then none
  else
    let r := parseGroups s.length (s.dropWhile isDigitCh) [charsVal d1]
    match r.2 with
    | ']' :: s6 => some (r.1, s6)
    | _ => none

/-- `re.finditer` of the citation pattern over the cited text: try a match
at each position, jump past a match, advance one character otherwise;
collects every cited number in order (`found_citations`). -/
def scanCitations : Nat → Str → List Nat
  | 0, _ => []
  | _+1, [] => []
  | fuel+1, c :: rest =>
    if c == '[' then
      match parseBracketBody rest with
      | some (nums, rest2) => nums ++ scanCitations fuel rest2
      | none => scanCitations fuel rest
    else scanCitations fuel rest

/-- First occurrence split: `some (before, after)` around the first
occurrence of `sep`, `none` when `sep` does not occur. -/
def splitFirstOn (sep : Str) : Str → Option (Str × Str)
  | [] => if sep.isEmpty then some ([], []) else none
  | c :: rest =>
    if sep.isPrefixOf (c :: rest) then some ([], (c :: rest).drop sep.length)
    else (splitFirstOn sep rest).map (fun p => (c :: p.1, p.2))

/-- Result record of `LLMCitationAgent.cite_text`. -/
structure LCiteResult where
  cited_text : Str
  references : Str
  citations : List LCitation
deriving DecidableEq

/-- `LLMCitationAgent.cite_text` from the service response on: strip the
response, cut it at the first `## References` marker (Python's
`split(marker)[0]`/`[1]`; the echoed references section is extracted but
never used in the outputs), synthesise one candidate reference per source,
keep the candidates whose index is cited in the text, sort them ascending by
index and render them with leading `[n]` markers.  The service call itself
(whose failure propagates uncaught) is outside this function. -/
def citeText (resp : Str) (sources : List LSource) (style : Str) : LCiteResult :=
  let cited0 := trimWs resp
  let marker := lit "## References"
  let citedText := match splitFirstOn marker cited0 with
    | none => cited0
    | some p => trimWs p.1
  let cands := buildCandidates sources style
  let found := scanCitations (citedText.length + 1) citedText
  let used := cands.filter (fun c => found.contains c.id)
  let used2 := List.insertionSort (fun x y : LCitation => x.id ≤ y.id) used
  let refs := used2.foldl
    (fun acc c => acc ++ '[' :: natChars c.id ++ ']' :: ' ' :: c.reference ++ lit "\n\n") []
  ⟨citedText, refs, used2⟩

/-- A source record built by `LeadResearcher._collect_sources` from one raw
search result. -/
structure WSource where
  title : Str
  authors : List Str
  year : Int
  url : Str
  content : Str
deriving DecidableEq

/-- The per-result field extraction of `LeadResearcher._collect_sources`. -/
def toWSource (nowYear : Int) (r : SearchResult) : WSource :=
  ⟨r.title.getD (lit "Untitled"), r.authors.getD [lit "Unknown Author"],
   r.year.getD nowYear, r.url.getD [], r.content.getD []⟩

/-- `LeadResearcher._collect_sources`: extract a source dict per raw search
result, then deduplicate keyed by URL (`if url and url not in unique_sources`):
the first occurrence of each non-empty URL is kept in order, and sources
with an empty URL are dropped.  The analyses branch of the source never
contributes (a `ContentAnalysis` has no `sources` attribute), so it is not
modelled. -/
def collectSources (nowYear : Int) (results : List SearchResult) : List WSource :=
  let sources := results.map (toWSource nowYear)
  sources.foldl
    (fun acc s =>
      if s.url.isEmpty then acc
      else if acc.any (fun t => t.url == s.url) then acc
      else acc ++ [s]) []

/-- `reviewer_agent.ReviewFeedback`. -/
structure ReviewFeedback where
  strengths : List Str
  weaknesses : List Str
  missing_elements : List Str
  suggestions : List Str
  confidence_score : ℚ
  priority_fixes : List Str
deriving DecidableEq

/-- The validated fields of a well-formed reviewer response (a JSON object
whose six required fields have the required types). -/
structure ReviewJson where
  strengths : List Str
  weaknesses : List Str
  missing_elements : List Str
  suggestions : List Str
  confidence_score : ℚ
  priority_fixes : List Str

/-- The fallback feedback `ReviewerAgent.forward` returns when the response
cannot be parsed as JSON with the required fields. -/
def reviewerFallback : ReviewFeedback :=
  ⟨[], [lit "Failed to parse review feedback"], [],
   [lit "Please try reviewing the report again"], 0,
   [lit "Fix the review process"]⟩

/-- The response handling of `ReviewerAgent.forward`: a parsed, validated
response yields its fields, any `json.JSONDecodeError` or `ValueError`
(modelled as the `error` case) yields the fallback feedback. -/
def reviewerForward (parsed : Except Str ReviewJson) : ReviewFeedback :=
  match parsed with
  | .ok j => ⟨j.strengths, j.weaknesses, j.missing_elements, j.suggestions,
      j.confidence_score, j.priority_fixes⟩
  | .error _ => reviewerFallback

/-- A metadata value of a research report. -/
inductive MVal where
  | s (v : Str)
  | rev (r : ReviewFeedback)
  | strat (v : Str)
deriving DecidableEq

/-- `lead_researcher.ReportSection` (citation dicts reduced to their ids). -/
structure RSection where
  title : Str
  content : Str
  key_points : List Str
  citations : List LCitation
deriving DecidableEq

/-- `lead_researcher.ResearchReport`. -/
structure ResearchReport where
  title : Str
  sections : List RSection
  metadata : List (Str × MVal)
deriving DecidableEq

/-- Python dict assignment on report metadata. -/
def metaSet (md : List (Str × MVal)) (k : Str) (v : MVal) : List (Str × MVal) :=
  if md.any (fun e => e.1 == k) then
    md.map (fun e => if e.1 == k then (e.1, v) else e)
  else md ++ [(k, v)]

/-- Metadata lookup. -/
def metaGet (md : List (Str × MVal)) (k : Str) : Option MVal :=
  (md.find? (fun e => e.1 == k)).map (fun e => e.2)

/-- The minimal error report of `LeadResearcher.forward`'s top-level
`except` clause. -/
def errorReport (query strategy e : Str) : ResearchReport :=
  ⟨lit "Research Report (Error)",
   [⟨lit "Error",
     lit "An error occurred while generating the report:\n                                    " ++ e,
     [], []⟩],
   [(lit "query", MVal.s query), (lit "strategy", MVal.strat strategy),
    (lit "error", MVal.s e)]⟩

/-- The regeneration gate of `LeadResearcher.forward`:
`confidence_score < 0.7 or len(priority_fixes) > 0`. -/
def regenCondition (r : ReviewFeedback) : Prop :=
  r.confidence_score < mkRat 7 10 ∨ r.priority_fixes ≠ []

instance (r : ReviewFeedback) : Decidable (regenCondition r) := by
  unfold regenCondition; infer_instance

/-- The oracle for one `LeadResearcher.forward` run: the outcome of each
external phase in program order (each either returns a value or raises,
modelled as `Except`).  Phases after a raising one are never reached. -/
structure LoopEnv where
  query : Str
  strategy : Str
  planR : Except Str Unit
  searchR : Except Str Unit
  analysesR : Except Str Unit
  gen1R : Except Str ResearchReport
  review1R : Except Str ReviewFeedback
  gen2R : Except Str ResearchReport
  review2R : Except Str ReviewFeedback
  saveInitR : Except Str Unit
  saveImpR : Except Str Unit

/-- The body of `LeadResearcher.forward`'s `try` block: plan, search,
analyses, initial report, first review; then either the regeneration branch
(second report, second review, both feedbacks into metadata, save, return)
or the finalize branch (first feedback into metadata, save, return).  The
returned number counts the regenerations performed. -/
def runSteps (env : LoopEnv) : Except Str (ResearchReport × Nat) :=
  match env.planR with
  | .error e => .error e
  | .ok _ =>
  match env.searchR with
  | .error e => .error e
  | .ok _ =>
  match env.analysesR with
  | .error e => .error e
  | .ok _ =>
  match env.gen1R with
  | .error e => .error e
  | .ok r0 =>
  match env.review1R with
  | .error e => .error e
  | .ok r1 =>
  if regenCondition r1 then
    match env.gen2R with
    | .error e => .error e
    | .ok imp =>
    match env.review2R with
    | .error e => .error e
    | .ok r2 =>
    match env.saveImpR with
    | .error e => .error e
    | .ok _ =>
      .ok (⟨imp.title, imp.sections,
        metaSet (metaSet imp.metadata (lit "initial_review") (MVal.rev r1))
          (lit "final_review") (MVal.rev r2)⟩, 1)
  else
    match env.saveInitR with
    | .error e => .error e
    | .ok _ =>
      .ok (⟨r0.title, r0.sections, metaSet r0.metadata (lit "review") (MVal.rev r1)⟩, 0)

/-- `LeadResearcher.forward`: the `try` body with its top-level `except`
clause converting any raised exception into the one-section error report. -/
def leadForward (env : LoopEnv) : ResearchReport × Nat :=
  match runSteps env with
  | .ok x => x
  | .error e => (errorReport env.query env.strategy e, 0)

/-- The slice `l[lo:hi]` of a list. -/
def strSlice (s : Str) (lo hi : Nat) : Str :=
  (s.drop lo).take (hi - lo)

/-- The invariant of the best-block scan: the accumulator is either the
initial `(alo, blo, 0)` or a genuine matching block inside the window. -/
def BestValid (a b : Str) (alo ahi blo bhi : Nat) (r : Nat × Nat × Nat) : Prop :=
  r = (alo, blo, 0) ∨
    (r.2.2 ≠ 0 ∧ alo ≤ r.1 ∧ r.1 + r.2.2 ≤ ahi ∧ blo ≤ r.2.1 ∧ r.2.1 + r.2.2 ≤ bhi ∧
      ∀ t, t < r.2.2 → cellMatch a b (r.1 + t) (r.2.1 + t) = true)

/-- The citation keys of the database are pairwise distinct. -/
def keysNodup (db : List (Str × Citation)) : Prop :=
  (db.map Prod.fst).Nodup

/-- Every stored reference line starts with the bracketed one-based registry
position of its entry. -/
def DbNumbered (db : List (Str × Citation)) : Prop :=
  ∀ p (hp : p < db.length),
    ∃ rest, (db.get ⟨p, hp⟩).2.reference = '[' :: natChars (p + 1) ++ ']' :: ' ' :: rest

/-- Every stored citation's `citation_key` field equals its database key. -/
def KeysConsistent (db : List (Str × Citation)) : Prop :=
  ∀ e ∈ db, e.2.citation_key = e.1

/-- Concrete `forward` inputs for instantiating the reference-list
properties: two registered sources — one with three authors — each matched
by exactly one sentence of the content. -/
def c6Content : Str := lit "finding. zebra qq!"

/-- The search results paired with `c6Content`. -/
def c6Results : List SearchResult :=
  [{ title := some (lit "T1"), authors := some [lit "Ann", lit "Bo", lit "Cy"],
     year := some 2020, content := some (lit "zebra qq") },
   { title := some (lit "T2"), authors := some [lit "Bob"], year := some 2021,
     content := some (lit "finding") }]

set_option maxRecDepth 10000

theorem foldl_preserve {α β : Type} (P : β → Prop) (f : β → α → β) :
    ∀ (l : List α) (init : β), P init → (∀ acc x, x ∈ l → P acc → P (f acc x)) →
      P (l.foldl f init)
  | [], _, h0, _ => h0
  | x :: xs, init, h0, hstep =>
    foldl_preserve P f xs (f init x) (hstep init x (List.mem_cons_self x xs) h0)
      (fun acc y hy hacc => hstep acc y (List.mem_cons_of_mem x hy) hacc)

theorem foldl_measure_le {α β : Type} (g : β → Nat) (f : β → α → β)
    (mono : ∀ acc x, g acc ≤ g (f acc x)) :
    ∀ (l : List α) (init : β), g init ≤ g (l.foldl f init)
  | [], _ => Nat.le_refl _
  | x :: xs, init =>
    Nat.le_trans (mono init x) (foldl_measure_le g f mono xs (f init x))

theorem foldl_reaches {α β : Type} (g : β → Nat) (h : α → Nat) (f : β → α → β)
    (mono : ∀ acc x, g acc ≤ g (f acc x)) (hit : ∀ acc x, h x ≤ g (f acc x)) :
    ∀ (l : List α) (init : β) (x : α), x ∈ l → h x ≤ g (l.foldl f init) := by
  intro l
  induction l with
  | nil => intro _ x hx; cases hx
  | cons y ys ih =>
    intro init x hx
    rcases List.mem_cons.1 hx with rfl | hx2
    · exact Nat.le_trans (hit init x) (foldl_measure_le g f mono ys (f init x))
    · exact ih (f init y) x hx2

theorem inCellB_iff (a b : Str) (alo blo ahi bhi i j : Nat) :
    inCellB a b alo blo ahi bhi i j = true ↔
      alo ≤ i ∧ i < ahi ∧ blo ≤ j ∧ j < bhi ∧ cellMatch a b i j = true := by
  simp [inCellB, Bool.and_eq_true, decide_eq_true_eq, and_assoc]

theorem lcsuffix_spec (a b : Str) (alo blo ahi bhi : Nat) :
    ∀ i j, lcsuffix a b alo blo ahi bhi i j ≠ 0 →
      alo ≤ i ∧ i < ahi ∧ blo ≤ j ∧ j < bhi ∧
      lcsuffix a b alo blo ahi bhi i j + alo ≤ i + 1 ∧
      lcsuffix a b alo blo ahi bhi i j + blo ≤ j + 1 ∧
      ∀ t, t < lcsuffix a b alo blo ahi bhi i j →
        cellMatch a b (i - t) (j - t) = true := by
  intro i
  induction i with
  | zero =>
    intro j h
    rw [lcsuffix] at h ⊢
    by_cases hc : inCellB a b alo blo ahi bhi 0 j = true
    · obtain ⟨h1, h2, h3, h4, h5⟩ := (inCellB_iff a b alo blo ahi bhi 0 j).1 hc
      simp only [hc, if_true]
      refine ⟨h1, h2, h3, h4, by omega, by omega, ?_⟩
      intro t ht
      interval_cases t
      simpa using h5
    · simp [hc] at h
  | succ i ih =>
    intro j h
    match j with
    | 0 =>
      rw [lcsuffix] at h ⊢
      by_cases hc : inCellB a b alo blo ahi bhi (i+1) 0 = true
      · obtain ⟨h1, h2, h3, h4, h5⟩ := (inCellB_iff a b alo blo ahi bhi (i+1) 0).1 hc
        simp only [hc, if_true]
        refine ⟨h1, h2, h3, h4, by omega, by omega, ?_⟩
        intro t ht
        interval_cases t
        simpa using h5
      · simp [hc] at h
    | j+1 =>
      rw [lcsuffix] at h ⊢
      by_cases hc : inCellB a b alo blo ahi bhi (i+1) (j+1) = true
      · obtain ⟨h1, h2, h3, h4, h5⟩ := (inCellB_iff a b alo blo ahi bhi (i+1) (j+1)).1 hc
        simp only [hc, if_true] at h ⊢
        by_cases hedge : i + 1 = alo ∨ j + 1 = blo
        · simp only [hedge, if_true]
          refine ⟨h1, h2, h3, h4, by omega, by omega, ?_⟩
          intro t ht
          interval_cases t
          simpa using h5
        · simp only [hedge, if_false]
          by_cases hz : lcsuffix a b alo blo ahi bhi i j = 0
          · rw [hz]
            refine ⟨h1, h2, h3, h4, by omega, by omega, ?_⟩
            intro t ht
            have ht0 : t = 0 := by omega
            subst ht0
            simpa using h5
          · obtain ⟨g1, g2, g3, g4, g5, g6, g7⟩ := ih j hz
            refine ⟨h1, h2, h3, h4, by omega, by omega, ?_⟩
            intro t ht
            match t with
            | 0 => simpa using h5
            | t+1 =>
              have : i + 1 - (t + 1) = i - t := by omega
              rw [this]
              have : j + 1 - (t + 1) = j - t := by omega
              rw [this]
              exact g7 t (by omega)
      · simp [hc] at h

theorem flmStep_valid (a b : Str) (alo blo ahi bhi : Nat) (acc : Nat × Nat × Nat)
    (i j : Nat) (hacc : BestValid a b alo ahi blo bhi acc) :
    BestValid a b alo ahi blo bhi (flmStep a b alo blo ahi bhi acc i j) := by
  rw [flmStep]
  by_cases hlt : acc.2.2 < lcsuffix a b alo blo ahi bhi i j
  · simp only [hlt, if_true]
    have hk : lcsuffix a b alo blo ahi bhi i j ≠ 0 := by omega
    obtain ⟨h1, h2, h3, h4, h5, h6, h7⟩ := lcsuffix_spec a b alo blo ahi bhi i j hk
    right
    refine ⟨by simpa using hk, by simp; omega, by simp; omega, by simp; omega,
      by simp; omega, ?_⟩
    intro t ht
    simp only at ht ⊢
    have e1 : i + 1 - lcsuffix a b alo blo ahi bhi i j + t =
        i - (lcsuffix a b alo blo ahi bhi i j - 1 - t) := by omega
    have e2 : j + 1 - lcsuffix a b alo blo ahi bhi i j + t =
        j - (lcsuffix a b alo blo ahi bhi i j - 1 - t) := by omega
    rw [e1, e2]
    exact h7 _ (by omega)
  · simpa [hlt] using hacc

theorem flm_valid (a b : Str) (alo ahi blo bhi : Nat) :
    BestValid a b alo ahi blo bhi (findLongestMatch a b alo ahi blo bhi) := by
  rw [findLongestMatch]
  apply foldl_preserve (BestValid a b alo ahi blo bhi)
  · exact Or.inl rfl
  · intro acc i _ hacc
    apply foldl_preserve (BestValid a b alo ahi blo bhi)
    · exact hacc
    · intro acc2 j _ hacc2
      exact flmStep_valid a b alo blo ahi bhi acc2 i j hacc2

theorem flm_ge (a b : Str) (alo ahi blo bhi i j : Nat)
    (hi1 : alo ≤ i) (hi2 : i < ahi) (hj1 : blo ≤ j) (hj2 : j < bhi) :
    lcsuffix a b alo blo ahi bhi i j ≤ (findLongestMatch a b alo ahi blo bhi).2.2 := by
  rw [findLongestMatch]
  have innerMono : ∀ (acc : Nat × Nat × Nat) (j2 : Nat) (i2 : Nat),
      acc.2.2 ≤ (flmStep a b alo blo ahi bhi acc i2 j2).2.2 := by
    intro acc j2 i2
    rw [flmStep]
    by_cases hlt : acc.2.2 < lcsuffix a b alo blo ahi bhi i2 j2
    · simp [hlt]; omega
    · simp [hlt]
  have innerHit : ∀ (acc : Nat × Nat × Nat) (i2 j2 : Nat),
      lcsuffix a b alo blo ahi bhi i2 j2 ≤ (flmStep a b alo blo ahi bhi acc i2 j2).2.2 := by
    intro acc i2 j2
    rw [flmStep]
    by_cases hlt : acc.2.2 < lcsuffix a b alo blo ahi bhi i2 j2
    · simp [hlt]
    · simp [hlt]; omega
  have rowGe : ∀ (acc : Nat × Nat × Nat) (i2 : Nat), i2 = i →
      lcsuffix a b alo blo ahi bhi i j ≤
        ((List.range' blo (bhi - blo)).foldl
          (fun acc2 j2 => flmStep a b alo blo ahi bhi acc2 i2 j2) acc).2.2 := by
    intro acc i2 hi2eq
    rw [hi2eq]
    apply foldl_reaches (fun r => r.2.2) (fun j2 => lcsuffix a b alo blo ahi bhi i j2)
      (fun acc2 j2 => flmStep a b alo blo ahi bhi acc2 i j2)
      (fun acc2 j2 => innerMono acc2 j2 i)
      (fun acc2 j2 => innerHit acc2 i j2)
    rw [List.mem_range']
    exact ⟨j - blo, by omega, by omega⟩
  have H := foldl_reaches (fun r : Nat × Nat × Nat => r.2.2)
    (fun i2 => if i2 = i then lcsuffix a b alo blo ahi bhi i j else 0)
    (fun acc i2 => (List.range' blo (bhi - blo)).foldl
      (fun acc2 j2 => flmStep a b alo blo ahi bhi acc2 i2 j2) acc)
    (fun acc i2 => foldl_measure_le (fun r => r.2.2)
      (fun acc2 j2 => flmStep a b alo blo ahi bhi acc2 i2 j2)
      (fun acc2 j2 => innerMono acc2 j2 i2) _ acc)
    (fun acc i2 => by
      by_cases hi2eq : i2 = i
      · subst hi2eq
        simp only [if_pos rfl]
        exact rowGe acc i2 rfl
      · simp [hi2eq])
    (List.range' alo (ahi - alo)) (alo, blo, 0) i
    (by rw [List.mem_range']; exact ⟨i - alo, by omega, by omega⟩)
  simpa using H

theorem matchedTotal_le (a b : Str) :
    ∀ fuel alo ahi blo bhi,
      matchedTotal a b fuel alo ahi blo bhi ≤ ahi - alo ∧
      matchedTotal a b fuel alo ahi blo bhi ≤ bhi - blo := by
  intro fuel
  induction fuel with
  | zero => intro alo ahi blo bhi; simp [matchedTotal]
  | succ fuel ih =>
    intro alo ahi blo bhi
    rw [matchedTotal]
    by_cases hk : (findLongestMatch a b alo ahi blo bhi).2.2 = 0
    · simp [hk]
    · simp only [hk, if_neg, ite_false]
      rcases flm_valid a b alo ahi blo bhi with heq | ⟨_, h2, h3, h4, h5, _⟩
      · rw [heq] at hk; simp at hk
      · have l1 := (ih alo (findLongestMatch a b alo ahi blo bhi).1 blo
          (findLongestMatch a b alo ahi blo bhi).2.1).1
        have l2 := (ih alo (findLongestMatch a b alo ahi blo bhi).1 blo
          (findLongestMatch a b alo ahi blo bhi).2.1).2
        have r1 := (ih ((findLongestMatch a b alo ahi blo bhi).1 +
            (findLongestMatch a b alo ahi blo bhi).2.2) ahi
          ((findLongestMatch a b alo ahi blo bhi).2.1 +
            (findLongestMatch a b alo ahi blo bhi).2.2) bhi).1
        have r2 := (ih ((findLongestMatch a b alo ahi blo bhi).1 +
            (findLongestMatch a b alo ahi blo bhi).2.2) ahi
          ((findLongestMatch a b alo ahi blo bhi).2.1 +
            (findLongestMatch a b alo ahi blo bhi).2.2) bhi).2
        constructor <;> omega

theorem strSlice_split (s : Str) (lo m hi : Nat) (h1 : lo ≤ m) (h2 : m ≤ hi) :
    strSlice s lo hi = strSlice s lo m ++ strSlice s m hi := by
  unfold strSlice
  have e : hi - lo = (m - lo) + (hi - m) := by omega
  have e2 : (s.drop lo).drop (m - lo) = s.drop m := by
    rw [List.drop_drop]
    congr 1
    omega
  rw [e, List.take_add, e2]

theorem strSlice_len_zero (s : Str) (lo hi : Nat) (h : hi - lo = 0) :
    strSlice s lo hi = [] := by
  unfold strSlice
  rw [h, List.take_zero]

theorem strSlice_full (s : Str) : strSlice s 0 s.length = s := by
  unfold strSlice
  simp

theorem strSlice_eq_of_matches (a b : Str) (i j k : Nat)
    (ha : i + k ≤ a.length) (hb : j + k ≤ b.length)
    (hm : ∀ t, t < k → cellMatch a b (i + t) (j + t) = true) :
    strSlice a i (i + k) = strSlice b j (j + k) := by
  have la : (strSlice a i (i + k)).length = k := by
    unfold strSlice
    simp
    omega
  have lb : (strSlice b j (j + k)).length = k := by
    unfold strSlice
    simp
    omega
  apply List.ext_getElem (by rw [la, lb])
  intro t ht1 ht2
  have htk : t < k := by rwa [la] at ht1
  have hmt := hm t htk
  unfold cellMatch at hmt
  have hia : i + t < a.length := by omega
  have hjb : j + t < b.length := by omega
  rw [List.getElem?_eq_getElem hia, List.getElem?_eq_getElem hjb] at hmt
  simp only [beq_iff_eq] at hmt
  simp only [strSlice, List.getElem_take, List.getElem_drop]
  exact hmt

theorem matchedTotal_full (a b : Str) :
    ∀ fuel alo ahi blo bhi,
      (ahi - alo) + (bhi - blo) < fuel → ahi ≤ a.length → bhi ≤ b.length →
      matchedTotal a b fuel alo ahi blo bhi = ahi - alo →
      matchedTotal a b fuel alo ahi blo bhi = bhi - blo →
      strSlice a alo ahi = strSlice b blo bhi := by
  intro fuel
  induction fuel with
  | zero => intro alo ahi blo bhi hf; omega
  | succ fuel ih =>
    intro alo ahi blo bhi hf hla hlb e1 e2
    rw [matchedTotal] at e1 e2
    by_cases hk : (findLongestMatch a b alo ahi blo bhi).2.2 = 0
    · simp only [hk, if_pos] at e1 e2
      rw [strSlice_len_zero a alo ahi (by omega), strSlice_len_zero b blo bhi (by omega)]
    · simp only [hk, ite_false] at e1 e2
      rcases flm_valid a b alo ahi blo bhi with heq | ⟨_, h2, h3, h4, h5, h6⟩
      · rw [heq] at hk; simp at hk
      · set i := (findLongestMatch a b alo ahi blo bhi).1 with hidef
        set j := (findLongestMatch a b alo ahi blo bhi).2.1 with hjdef
        set k := (findLongestMatch a b alo ahi blo bhi).2.2 with hkdef
        have bl1 := (matchedTotal_le a b fuel alo i blo j).1
        have bl2 := (matchedTotal_le a b fuel alo i blo j).2
        have br1 := (matchedTotal_le a b fuel (i + k) ahi (j + k) bhi).1
        have br2 := (matchedTotal_le a b fuel (i + k) ahi (j + k) bhi).2
        have eL1 : matchedTotal a b fuel alo i blo j = i - alo := by omega
        have eL2 : matchedTotal a b fuel alo i blo j = j - blo := by omega
        have eR1 : matchedTotal a b fuel (i + k) ahi (j + k) bhi = ahi - (i + k) := by omega
        have eR2 : matchedTotal a b fuel (i + k) ahi (j + k) bhi = bhi - (j + k) := by omega
        have hL := ih alo i blo j (by omega) (by omega) (by omega) eL1 eL2
        have hR := ih (i + k) ahi (j + k) bhi (by omega) hla hlb eR1 eR2
        have hM := strSlice_eq_of_matches a b i j k (by omega) (by omega) h6
        rw [strSlice_split a alo i ahi (by omega) (by omega),
            strSlice_split a i (i + k) ahi (by omega) (by omega),
            strSlice_split b blo j bhi (by omega) (by omega),
            strSlice_split b j (j + k) bhi (by omega) (by omega)]
        rw [hL, hM, hR]

theorem cellMatch_self (a : Str) (i : Nat) (h : i < a.length) :
    cellMatch a a i i = true := by
  unfold cellMatch
  rw [List.getElem?_eq_getElem h]
  simp

theorem lcsuffix_diag (a : Str) :
    ∀ t, t < a.length → lcsuffix a a 0 0 a.length a.length t t = t + 1 := by
  intro t
  induction t with
  | zero =>
    intro h
    rw [lcsuffix]
    have : inCellB a a 0 0 a.length a.length 0 0 = true := by
      rw [inCellB_iff]
      exact ⟨Nat.le_refl _, h, Nat.le_refl _, h, cellMatch_self a 0 h⟩
    simp [this]
  | succ t ih =>
    intro h
    rw [lcsuffix]
    have hc : inCellB a a 0 0 a.length a.length (t+1) (t+1) = true := by
      rw [inCellB_iff]
      exact ⟨Nat.zero_le _, h, Nat.zero_le _, h, cellMatch_self a (t+1) h⟩
    have hedge : ¬(t + 1 = 0 ∨ t + 1 = 0) := by omega
    simp only [hc, if_true, hedge, if_false]
    rw [ih (by omega)]

theorem matched_self (a : Str) : matched a a = a.length := by
  by_cases h0 : a.length = 0
  · have : a = [] := List.eq_nil_of_length_eq_zero h0
    subst this
    rfl
  · have hlen : 0 < a.length := by omega
    have hge : a.length ≤ (findLongestMatch a a 0 a.length 0 a.length).2.2 := by
      have := flm_ge a a 0 a.length 0 a.length (a.length - 1) (a.length - 1)
        (by omega) (by omega) (by omega) (by omega)
      rw [lcsuffix_diag a (a.length - 1) (by omega)] at this
      omega
    rcases flm_valid a a 0 a.length 0 a.length with heq | ⟨h1, h2, h3, h4, h5, _⟩
    · rw [heq] at hge
      exact absurd (Nat.le_zero.mp hge) h0
    · have hk : (findLongestMatch a a 0 a.length 0 a.length).2.2 = a.length := by omega
      have hi : (findLongestMatch a a 0 a.length 0 a.length).1 = 0 := by omega
      have hj : (findLongestMatch a a 0 a.length 0 a.length).2.1 = 0 := by omega
      unfold matched
      have hfuel : a.length + a.length + 1 = (a.length + a.length) + 1 := rfl
      rw [hfuel, matchedTotal]
      simp only [hk, hi, hj]
      have hne : ¬(a.length = 0) := h0
      simp only [hne, ite_false]
      have tL := matchedTotal_le a a (a.length + a.length) 0 0 0 0
      have tR := matchedTotal_le a a (a.length + a.length) (0 + a.length) a.length
        (0 + a.length) a.length
      omega

theorem cellMatch_false_of_disjoint (a b : Str) (hd : ∀ c, c ∈ a → c ∉ b) :
    ∀ i j, cellMatch a b i j = false := by
  intro i j
  unfold cellMatch
  match ha : a[i]?, hb : b[j]? with
  | some x, some y =>
    simp only [beq_eq_false_iff_ne, ne_eq]
    intro hxy
    subst hxy
    exact hd x (List.getElem?_mem ha) (List.getElem?_mem hb)
  | some x, none => rfl
  | none, some y => rfl
  | none, none => rfl

theorem lcsuffix_zero_of_disjoint (a b : Str) (alo blo ahi bhi : Nat)
    (hd : ∀ c, c ∈ a → c ∉ b) :
    ∀ i j, lcsuffix a b alo blo ahi bhi i j = 0 := by
  have hcm := cellMatch_false_of_disjoint a b hd
  intro i j
  have hcell : ∀ i2 j2, inCellB a b alo blo ahi bhi i2 j2 = false := by
    intro i2 j2
    unfold inCellB
    rw [hcm i2 j2]
    simp
  match i, j with
  | 0, j => rw [lcsuffix, hcell]; simp
  | i+1, 0 => rw [lcsuffix, hcell]; simp
  | i+1, j+1 => rw [lcsuffix, hcell]; simp

theorem matched_zero_of_disjoint (a b : Str) (hd : ∀ c, c ∈ a → c ∉ b) :
    matched a b = 0 := by
  have hflm : ∀ alo ahi blo bhi,
      findLongestMatch a b alo ahi blo bhi = (alo, blo, 0) := by
    intro alo ahi blo bhi
    rw [findLongestMatch]
    apply foldl_preserve (fun r => r = (alo, blo, 0))
    · rfl
    · intro acc i _ hacc
      apply foldl_preserve (fun r => r = (alo, blo, 0))
      · exact hacc
      · intro acc2 j _ hacc2
        rw [flmStep, lcsuffix_zero_of_disjoint a b alo blo ahi bhi hd i j]
        subst hacc2
        simp
  unfold matched
  rcases Nat.exists_eq_succ_of_ne_zero (n := a.length + b.length + 1) (by omega) with ⟨m, hm⟩
  rw [hm, matchedTotal, hflm]
  simp

theorem mkRat_int_eq_div (n : Int) (d : Nat) : (mkRat n d : ℚ) = (n : ℚ) / (d : ℚ) := by
  rw [Rat.mkRat_eq_divInt, Rat.divInt_eq_div]
  norm_cast

theorem matched_le (a b : Str) : matched a b ≤ a.length ∧ matched a b ≤ b.length := by
  have := matchedTotal_le a b (a.length + b.length + 1) 0 a.length 0 b.length
  unfold matched
  omega

theorem ratioQ_nonneg (a b : Str) : 0 ≤ ratioQ a b := by
  unfold ratioQ
  by_cases h : a.length + b.length = 0
  · simp [h]
  · simp only [h, ite_false]
    rw [mkRat_int_eq_div]
    push_cast
    positivity

theorem ratioQ_le_one (a b : Str) : ratioQ a b ≤ 1 := by
  unfold ratioQ
  by_cases h : a.length + b.length = 0
  · simp [h]
  · simp only [h, ite_false]
    rw [mkRat_int_eq_div]
    rw [div_le_one (by positivity)]
    have hm := matched_le a b
    have h2 : 2 * matched a b ≤ a.length + b.length := by omega
    push_cast
    exact_mod_cast h2

theorem ratioQ_eq_one_iff (a b : Str) : ratioQ a b = 1 ↔ a = b := by
  constructor
  · intro h
    unfold ratioQ at h
    by_cases h0 : a.length + b.length = 0
    · have ha : a = [] := List.eq_nil_of_length_eq_zero (by omega)
      have hb : b = [] := List.eq_nil_of_length_eq_zero (by omega)
      rw [ha, hb]
    · simp only [h0, ite_false] at h
      rw [mkRat_int_eq_div] at h
      rw [div_eq_one_iff_eq (by exact_mod_cast h0)] at h
      have h2M : 2 * matched a b = a.length + b.length := by exact_mod_cast h
      have hm := matched_le a b
      have hMa : matched a b = a.length := by omega
      have hMb : matched a b = b.length := by omega
      have := matchedTotal_full a b (a.length + b.length + 1) 0 a.length 0 b.length
        (by omega) (Nat.le_refl _) (Nat.le_refl _)
        (by unfold matched at hMa; omega) (by unfold matched at hMb; omega)
      rwa [strSlice_full, strSlice_full] at this
  · intro h
    subst h
    unfold ratioQ
    by_cases h0 : a.length + a.length = 0
    · simp [h0]
    · simp only [h0, ite_false]
      rw [matched_self, mkRat_int_eq_div]
      rw [div_eq_one_iff_eq (by exact_mod_cast h0)]
      push_cast
      ring

theorem ratioQ_zero_of_disjoint (a b : Str) (hd : ∀ c, c ∈ a → c ∉ b)
    (hne : a.length + b.length ≠ 0) : ratioQ a b = 0 := by
  unfold ratioQ
  simp only [hne, ite_false]
  rw [matched_zero_of_disjoint a b hd]
  rw [mkRat_int_eq_div]
  simp

/-- C5: for strings below difflib's autojunk threshold, `calculate_similarity`
is a rational in `[0, 1]`, is case-insensitive (it depends only on the
lowercased arguments), and equals `1` exactly when the strings are equal
ignoring case; it equals `0` whenever the strings share no characters
ignoring case and at least one of them is non-empty.  (Symmetry and the
unrestricted zero clause of the original claim are refuted by
`C5_similarity_counterexample`.) -/
theorem C5_similarity_contract (a b : Str) (hb : b.length < 200) :
    0 ≤ calculate_similarity a b ∧ calculate_similarity a b ≤ 1 ∧
    (∀ a2 b2 : Str, a2.map toLowerCh = a.map toLowerCh →
      b2.map toLowerCh = b.map toLowerCh →
      calculate_similarity a2 b2 = calculate_similarity a b) ∧
    (calculate_similarity a b = 1 ↔ a.map toLowerCh = b.map toLowerCh) ∧
    ((a ≠ [] ∨ b ≠ []) →
      (∀ c, c ∈ a.map toLowerCh → c ∉ b.map toLowerCh) →
      calculate_similarity a b = 0) := by
  refine ⟨ratioQ_nonneg _ _, ratioQ_le_one _ _, ?_, ?_, ?_⟩
  · intro a2 b2 ha2 hb2
    unfold calculate_similarity
    rw [ha2, hb2]
  · exact ratioQ_eq_one_iff (a.map toLowerCh) (b.map toLowerCh)
  · intro hne hd
    unfold calculate_similarity
    apply ratioQ_zero_of_disjoint _ _ hd
    simp only [List.length_map]
    rcases hne with h | h
    · have : a.length ≠ 0 := fun h0 => h (List.eq_nil_of_length_eq_zero h0)
      omega
    · have : b.length ≠ 0 := fun h0 => h (List.eq_nil_of_length_eq_zero h0)
      omega

/-- C5: the claim as frozen is false on the code: `calculate_similarity` is
not symmetric (`"abzecd"` against `"cdwabe"` scores `1/2` one way and `1/3`
the other), and two strings that share no characters need not score `0`
(two empty strings score `1`, and so do `"A"` and `"a"`, which share no
character literally). -/
theorem C5_similarity_counterexample :
    calculate_similarity "abzecd".toList "cdwabe".toList ≠
      calculate_similarity "cdwabe".toList "abzecd".toList ∧
    (∀ c, c ∈ ([] : Str) → c ∉ ([] : Str)) ∧
    calculate_similarity [] [] = 1 ∧
    (∀ c, c ∈ "A".toList → c ∉ "a".toList) ∧
    calculate_similarity "A".toList "a".toList = 1 := by
  refine ⟨by decide, by simp, by decide, by decide, by decide⟩

/-- C5 witness: the contract instantiated at concrete short strings. -/
theorem C5_similarity_contract_w :
    0 ≤ calculate_similarity "ab".toList "cd".toList ∧
    calculate_similarity "ab".toList "cd".toList ≤ 1 ∧
    (∀ a2 b2 : Str, a2.map toLowerCh = "ab".toList.map toLowerCh →
      b2.map toLowerCh = "cd".toList.map toLowerCh →
      calculate_similarity a2 b2 = calculate_similarity "ab".toList "cd".toList) ∧
    (calculate_similarity "ab".toList "cd".toList = 1 ↔
      "ab".toList.map toLowerCh = "cd".toList.map toLowerCh) ∧
    (("ab".toList ≠ ([] : Str) ∨ "cd".toList ≠ ([] : Str)) →
      (∀ c, c ∈ "ab".toList.map toLowerCh → c ∉ "cd".toList.map toLowerCh) →
      calculate_similarity "ab".toList "cd".toList = 0) :=
  C5_similarity_contract "ab".toList "cd".toList (by decide)

theorem foldl_processSentence_map (db : List (Str × Citation)) :
    ∀ (sentences : List Str) (acc : List Str × List Str),
      (sentences.foldl (processSentence db) acc).1 =
        acc.1 ++ sentences.map (fun s =>
          if matchingEntries db s = [] then s
          else s ++ ' ' :: formatCitationGroup db
            (sortYearDesc ((matchingEntries db s).map (fun e => e.2)))) := by
  intro sentences
  induction sentences with
  | nil => intro acc; simp
  | cons s rest ih =>
    intro acc
    have hstep : (processSentence db acc s).1 = acc.1 ++
        [if matchingEntries db s = [] then s
         else s ++ ' ' :: formatCitationGroup db
           (sortYearDesc ((matchingEntries db s).map (fun e => e.2)))] := by
      cases hml : matchingEntries db s with
      | nil =>
        unfold processSentence
        rw [hml]
        simp
      | cons e es =>
        unfold processSentence
        rw [hml]
        simp
    rw [List.foldl_cons, ih, hstep, List.map_cons]
    simp

/-- C7 (amended): the resolver splits content into segments at each maximal
whitespace run preceded by `.`, `!` or `?`, keeps the segments verbatim (no
trimming, empty segments kept), and in every run — mixed or not — each
sentence without a threshold-reaching source passes through unmodified
(the `if` branch of the per-sentence rewrite) while matched sentences gain
their bracket group, the processed sentences being rejoined with single
spaces.  The second conjunct exhibits the segmentation on a concrete input
(leading space kept, trailing empty segment kept); the third runs a
concrete mixed content — first sentence matched, second unmatched — and
shows the unmatched sentence verbatim in the rejoined output. -/
theorem C7_segmentation (content : Str) (db : List (Str × Citation)) :
    (addCitationsToContent db content).1 =
      List.intercalate [' '] ((splitSentences content).map (fun s =>
        if matchingEntries db s = [] then s
        else s ++ ' ' :: formatCitationGroup db
          (sortYearDesc ((matchingEntries db s).map (fun e => e.2))))) ∧
    splitSentences (lit " a. b!  c? ") = [lit " a.", lit "b!", lit "c?", []] ∧
    (addCitationsToContent
      [(lit "Bob_2021",
        { title := lit "T2", authors := [lit "Bob"], year := 2021, url := [],
          doi := none, content := lit "finding", citation_key := lit "Bob_2021",
          reference := lit "[1] Bob. 2021. \"T2.\" [No valid URL available]" })]
      (lit "finding. hello zzz?")).1 = lit "finding. [1] hello zzz?" := by
  refine ⟨?_, by decide, by decide⟩
  unfold addCitationsToContent
  dsimp only
  rw [foldl_processSentence_map db (splitSentences content) ([], [])]
  simp

/-- C7: the claim as frozen is false on the code: segments are neither
trimmed nor dropped when empty.  On `"q. "` the resolver returns `"q. "`
(the trailing empty segment is kept and rejoined), not the `"q."` the claim
predicts; on `" a. b"` the leading space of the first segment survives. -/
theorem C7_counterexample :
    (addCitationsToContent [] (lit "q. ")).1 = lit "q. " ∧ lit "q. " ≠ lit "q." ∧
    (addCitationsToContent [] (lit " a. b")).1 = lit " a. b" ∧
    lit " a. b" ≠ lit "a. b" := by
  refine ⟨by decide, by decide, by decide, by decide⟩

/-- C1: the code deviates from the claim.  With two registered sources whose
keys are `Ann_2020` (registry position 1) and `Bob_2021` (registry position
2), a sentence matching only the second source is rewritten with the bracket
marker `[1]` — the one-based rank inside the matched group — although the
matching source's overall citation number is 2, as its own reference line
`[2] …` shows.  The claim (and the spec) require the marker to display the
registry position. -/
theorem C1_code_divergence :
    (citationForward (lit "finding")
      [{ title := some (lit "T1"), authors := some [lit "Ann"], year := some 2020,
         content := some (lit "qqqq") },
       { title := some (lit "T2"), authors := some [lit "Bob"], year := some 2021,
         content := some (lit "finding") }]
      (lit "chicago") 2025).content = lit "finding [1]" ∧
    (citationForward (lit "finding")
      [{ title := some (lit "T1"), authors := some [lit "Ann"], year := some 2020,
         content := some (lit "qqqq") },
       { title := some (lit "T2"), authors := some [lit "Bob"], year := some 2021,
         content := some (lit "finding") }]
      (lit "chicago") 2025).reference_list =
      [lit "[2] Bob. 2021. \"T2.\" [No valid URL available]"] ∧
    lit "finding [1]" ≠ lit "finding [2]" := by
  refine ⟨by decide, by decide, by decide⟩

theorem find?_cons_pos_url (s t : WSource) (rest : List WSource)
    (h : t.url = s.url) :
    List.find? (fun u => u.url == s.url) (t :: rest) = some t := by
  have hb : (t.url == s.url) = true := beq_iff_eq.mpr h
  rw [List.find?_cons, hb]

theorem find?_cons_neg_url (s t : WSource) (rest : List WSource)
    (h : t.url ≠ s.url) :
    List.find? (fun u => u.url == s.url) (t :: rest) =
      List.find? (fun u => u.url == s.url) rest := by
  have hb : (t.url == s.url) = false := beq_eq_false_iff_ne.mpr h
  rw [List.find?_cons, hb]

theorem collect_mem :
    ∀ (l acc : List WSource) (s : WSource),
      s ∈ l.foldl (fun acc2 t =>
          if t.url.isEmpty then acc2
          else if acc2.any (fun u => u.url == t.url) then acc2
          else acc2 ++ [t]) acc ↔
        s ∈ acc ∨ (s.url ≠ [] ∧ (∀ t ∈ acc, t.url ≠ s.url) ∧
          List.find? (fun t => t.url == s.url) l = some s) := by
  intro l
  induction l with
  | nil =>
    intro acc s
    simp
  | cons t rest ih =>
    intro acc s
    rw [List.foldl_cons]
    by_cases hturl : t.url.isEmpty
    · rw [if_pos hturl, ih acc s]
      have hne : ∀ s2 : WSource, s2.url ≠ [] → t.url ≠ s2.url := by
        intro s2 h2 hbeq
        rw [List.isEmpty_iff] at hturl
        exact h2 (by rw [← hbeq, hturl])
      constructor
      · rintro (h | ⟨h1, h2, h3⟩)
        · exact Or.inl h
        · exact Or.inr ⟨h1, h2, by rw [find?_cons_neg_url s t rest (hne s h1), h3]⟩
      · rintro (h | ⟨h1, h2, h3⟩)
        · exact Or.inl h
        · refine Or.inr ⟨h1, h2, ?_⟩
          rwa [find?_cons_neg_url s t rest (hne s h1)] at h3
    · rw [if_neg hturl]
      by_cases hin : acc.any (fun u => u.url == t.url)
      · rw [if_pos hin, ih acc s]
        rcases List.any_eq_true.1 hin with ⟨u, hu, hueq⟩
        rw [beq_iff_eq] at hueq
        constructor
        · rintro (h | ⟨h1, h2, h3⟩)
          · exact Or.inl h
          · have hts : t.url ≠ s.url := by
              intro he
              exact h2 u hu (by rw [hueq, he])
            exact Or.inr ⟨h1, h2, by rw [find?_cons_neg_url s t rest hts, h3]⟩
        · rintro (h | ⟨h1, h2, h3⟩)
          · exact Or.inl h
          · have hts : t.url ≠ s.url := by
              intro he
              exact h2 u hu (by rw [hueq, he])
            refine Or.inr ⟨h1, h2, ?_⟩
            rwa [find?_cons_neg_url s t rest hts] at h3
      · rw [if_neg hin, ih (acc ++ [t]) s]
        have htne : t.url ≠ [] := by
          intro he
          rw [List.isEmpty_iff] at hturl
          exact hturl he
        constructor
        · rintro (h | ⟨h1, h2, h3⟩)
          · rcases List.mem_append.1 h with h | h
            · exact Or.inl h
            · have hst : s = t := by simpa using h
              refine Or.inr ⟨by rw [hst]; exact htne, ?_, ?_⟩
              · intro u hu he
                exact hin (List.any_eq_true.2 ⟨u, hu, beq_iff_eq.mpr (by rw [he, hst])⟩)
              · rw [hst, find?_cons_pos_url t t rest rfl]
          · have hts : t.url ≠ s.url := by
              intro he
              exact (h2 t (List.mem_append.2 (Or.inr (List.mem_singleton.2 rfl)))) he
            refine Or.inr ⟨h1, ?_, ?_⟩
            · intro u hu
              exact h2 u (List.mem_append.2 (Or.inl hu))
            · rw [find?_cons_neg_url s t rest hts, h3]
        · rintro (h | ⟨h1, h2, h3⟩)
          · exact Or.inl (List.mem_append.2 (Or.inl h))
          · by_cases hts : t.url = s.url
            · rw [find?_cons_pos_url s t rest hts] at h3
              have : t = s := by simpa using h3
              subst this
              exact Or.inl (List.mem_append.2 (Or.inr (List.mem_singleton.2 rfl)))
            · rw [find?_cons_neg_url s t rest hts] at h3
              refine Or.inr ⟨h1, ?_, h3⟩
              intro u hu
              rcases List.mem_append.1 hu with h | h
              · exact h2 u h
              · have : u = t := by simpa using h
                subst this
                exact hts

theorem collect_nodup :
    ∀ (l acc : List WSource), (acc.map (fun s => s.url)).Nodup →
      ((l.foldl (fun acc2 t =>
          if t.url.isEmpty then acc2
          else if acc2.any (fun u => u.url == t.url) then acc2
          else acc2 ++ [t]) acc).map (fun s => s.url)).Nodup := by
  intro l
  induction l with
  | nil => intro acc h; simpa using h
  | cons t rest ih =>
    intro acc h
    rw [List.foldl_cons]
    by_cases hturl : t.url.isEmpty
    · rw [if_pos hturl]; exact ih acc h
    · rw [if_neg hturl]
      by_cases hin : acc.any (fun u => u.url == t.url)
      · rw [if_pos hin]; exact ih acc h
      · rw [if_neg hin]
        apply ih
        rw [List.map_append, List.nodup_append]
        refine ⟨h, by simp, ?_⟩
        intro x hx
        simp only [List.map_cons, List.map_nil, List.mem_singleton]
        intro he
        rcases List.mem_map.1 hx with ⟨u, hu, hux⟩
        exact hin (List.any_eq_true.2 ⟨u, hu, beq_iff_eq.mpr (by rw [hux, he])⟩)

/-- C8 (amended): `_collect_sources` deduplicates the raw source list keyed
by URL before registration: the output contains exactly the first occurrence
of each distinct non-empty URL from the extracted source list, in order of
first occurrence, and sources with an empty URL are dropped entirely (they
are not retained). -/
theorem C8_dedup_by_url (results : List SearchResult) (nowYear : Int) :
    (∀ s ∈ collectSources nowYear results, s.url ≠ []) ∧
    ((collectSources nowYear results).map (fun s => s.url)).Nodup ∧
    (∀ s : WSource, s ∈ collectSources nowYear results ↔
      (s.url ≠ [] ∧ List.find? (fun t => t.url == s.url)
        (results.map (toWSource nowYear)) = some s)) ∧
    (∀ t ∈ results.map (toWSource nowYear), t.url ≠ [] →
      ∃ s ∈ collectSources nowYear results, s.url = t.url) := by
  have hmem : ∀ s : WSource, s ∈ collectSources nowYear results ↔
      (s.url ≠ [] ∧ List.find? (fun t => t.url == s.url)
        (results.map (toWSource nowYear)) = some s) := by
    intro s
    unfold collectSources
    rw [collect_mem (results.map (toWSource nowYear)) [] s]
    simp
  refine ⟨fun s hs => ((hmem s).1 hs).1, ?_, hmem, ?_⟩
  · unfold collectSources
    exact collect_nodup (results.map (toWSource nowYear)) [] (by simp)
  · intro t ht htne
    have hex : (List.find? (fun u => u.url == t.url)
        (results.map (toWSource nowYear))).isSome := by
      rw [List.find?_isSome]
      exact ⟨t, ht, beq_iff_eq.mpr rfl⟩
    rcases Option.isSome_iff_exists.1 hex with ⟨s0, hs0⟩
    have hs0p := List.find?_some hs0
    rw [beq_iff_eq] at hs0p
    have hs0mem : s0 ∈ collectSources nowYear results := by
      rw [hmem s0]
      refine ⟨by rw [hs0p]; exact htne, ?_⟩
      have : (fun u : WSource => u.url == t.url) = (fun u : WSource => u.url == s0.url) := by
        funext u
        rw [hs0p]
      rwa [← this]
    exact ⟨s0, hs0mem, hs0p⟩

/-- C8: the claim as frozen is false on the code: a source whose URL is
empty is dropped by the dedup (`if url and url not in unique_sources`), not
retained.  A single source with content but no URL yields an empty collected
list. -/
theorem C8_counterexample :
    collectSources 2025 [{ title := some (lit "T"), content := some (lit "x") }] = [] ∧
    (toWSource 2025 { title := some (lit "T"), content := some (lit "x") }).url = [] ∧
    collectSources 2025 [{ url := some (lit "https://a"), content := some (lit "x") },
      { url := some (lit "https://a"), content := some (lit "y") }] =
      [toWSource 2025 { url := some (lit "https://a"), content := some (lit "x") }] := by
  refine ⟨by decide, by decide, by decide⟩

theorem buildCandidates_ids (sources : List LSource) (style : Str) :
    (buildCandidates sources style).map (fun c => c.id) =
      List.range' 1 sources.length := by
  calc (buildCandidates sources style).map (fun c => c.id)
      = sources.enum.map (fun e => e.1 + 1) := by
        unfold buildCandidates
        rw [List.map_map]
        rfl
    _ = (sources.enum.map Prod.fst).map (fun x => x + 1) := by
        rw [List.map_map]
        rfl
    _ = (List.range sources.length).map (fun x => x + 1) := by
        rw [List.enum_map_fst]
    _ = List.range' 1 sources.length := by
        rw [List.range'_eq_map_range]
        apply List.map_congr_left
        intro x _
        omega

theorem filter_candidates_sorted (sources : List LSource) (style : Str)
    (p : LCitation → Bool) :
    List.insertionSort (fun x y : LCitation => x.id ≤ y.id)
      ((buildCandidates sources style).filter p) =
      (buildCandidates sources style).filter p := by
  apply List.Sorted.insertionSort_eq
  have hpw : ((buildCandidates sources style).map (fun c => c.id)).Pairwise (· < ·) := by
    rw [buildCandidates_ids]
    exact List.pairwise_lt_range' 1 sources.length
  have hsub : List.Sublist (((buildCandidates sources style).filter p).map (fun c => c.id))
      ((buildCandidates sources style).map (fun c => c.id)) :=
    (List.filter_sublist _).map _
  have hpw2 := hpw.sublist hsub
  rw [List.pairwise_map] at hpw2
  exact hpw2.imp (fun h => Nat.le_of_lt h)

theorem pairwise_lt_filtered_ids (sources : List LSource) (style : Str)
    (p : LCitation → Bool) :
    (((buildCandidates sources style).filter p).map (fun c => c.id)).Pairwise (· < ·) := by
  have hpw : ((buildCandidates sources style).map (fun c => c.id)).Pairwise (· < ·) := by
    rw [buildCandidates_ids]
    exact List.pairwise_lt_range' 1 sources.length
  exact hpw.sublist ((List.filter_sublist _).map _)

/-- C9: `cite_text` synthesises one candidate reference per source index
(`buildCandidates` reads only the source list and style, never the service
response), and its output keeps exactly the candidates whose index occurs in
a numeric bracket citation of the cited text, in ascending index order, each
rendered with a leading `[n]` marker; uncited indices yield no entry. -/
theorem C9_cite_text (resp : Str) (sources : List LSource) (style : Str) :
    (citeText resp sources style).citations =
      (buildCandidates sources style).filter
        (fun c => (scanCitations ((citeText resp sources style).cited_text.length + 1)
          ((citeText resp sources style).cited_text)).contains c.id) ∧
    (buildCandidates sources style).map (fun c => c.id) =
      List.range' 1 sources.length ∧
    ((citeText resp sources style).citations.map (fun c => c.id)).Pairwise (· < ·) ∧
    (citeText resp sources style).references =
      (citeText resp sources style).citations.foldl
        (fun acc c => acc ++ '[' :: natChars c.id ++ ']' :: ' ' :: c.reference ++ lit "\n\n")
        [] := by
  refine ⟨?_, buildCandidates_ids sources style, ?_, ?_⟩
  · simp only [citeText]
    exact filter_candidates_sorted sources style _
  · simp only [citeText]
    rw [filter_candidates_sorted sources style _]
    exact pairwise_lt_filtered_ids sources style _
  · simp only [citeText]

theorem metaGet_cons (e : Str × MVal) (md : List (Str × MVal)) (k : Str) :
    metaGet (e :: md) k = if e.1 == k then some e.2 else metaGet md k := by
  unfold metaGet
  rw [List.find?_cons]
  cases h : (e.1 == k) <;> simp [h]

theorem metaGet_append_single_self (k : Str) (v : MVal) :
    ∀ md : List (Str × MVal), (∀ e ∈ md, e.1 ≠ k) →
      metaGet (md ++ [(k, v)]) k = some v := by
  intro md
  induction md with
  | nil =>
    intro _
    rw [List.nil_append, metaGet_cons]
    simp
  | cons e rest ih =>
    intro h
    rw [List.cons_append, metaGet_cons]
    have : (e.1 == k) = false :=
      beq_eq_false_iff_ne.mpr (h e (List.mem_cons_self e rest))
    rw [this]
    simp only [Bool.false_eq_true, if_false]
    exact ih (fun e2 he2 => h e2 (List.mem_cons_of_mem e he2))

theorem metaGet_append_single_ne (k k2 : Str) (v : MVal) (hne : k ≠ k2) :
    ∀ md : List (Str × MVal), metaGet (md ++ [(k2, v)]) k = metaGet md k := by
  intro md
  induction md with
  | nil =>
    rw [List.nil_append, metaGet_cons]
    have : (k2 == k) = false := beq_eq_false_iff_ne.mpr (Ne.symm hne)
    rw [this]
    rfl
  | cons e rest ih =>
    rw [List.cons_append, metaGet_cons, metaGet_cons]
    cases h : (e.1 == k) with
    | true => rfl
    | false => simpa using ih

theorem metaGet_map_replace_self (k : Str) (v : MVal) :
    ∀ md : List (Str × MVal), md.any (fun e => e.1 == k) →
      metaGet (md.map (fun e => if e.1 == k then (e.1, v) else e)) k = some v := by
  intro md
  induction md with
  | nil => intro h; simp at h
  | cons e rest ih =>
    intro h
    rw [List.map_cons]
    by_cases he : (e.1 == k) = true
    · rw [if_pos he, metaGet_cons]
      simp [he]
    · have he2 : (e.1 == k) = false := by
        cases hx : (e.1 == k) with
        | true => exact absurd hx he
        | false => rfl
      rw [if_neg he, metaGet_cons, he2]
      simp only [Bool.false_eq_true, if_false]
      apply ih
      rw [List.any_cons, he2, Bool.false_or] at h
      exact h

theorem metaGet_map_replace_ne (k k2 : Str) (v : MVal) (hne : k ≠ k2) :
    ∀ md : List (Str × MVal),
      metaGet (md.map (fun e => if e.1 == k2 then (e.1, v) else e)) k = metaGet md k := by
  intro md
  induction md with
  | nil => rfl
  | cons e rest ih =>
    rw [List.map_cons]
    by_cases he2 : (e.1 == k2) = true
    · rw [if_pos he2, metaGet_cons, metaGet_cons]
      dsimp only
      by_cases hek : (e.1 == k) = true
      · rw [beq_iff_eq] at he2 hek
        exact absurd (hek ▸ he2) hne
      · rw [if_neg hek, if_neg hek]
        exact ih
    · rw [if_neg he2, metaGet_cons, metaGet_cons]
      by_cases hek : (e.1 == k) = true
      · rw [if_pos hek, if_pos hek]
      · rw [if_neg hek, if_neg hek]
        exact ih

theorem metaGet_metaSet_self (md : List (Str × MVal)) (k : Str) (v : MVal) :
    metaGet (metaSet md k v) k = some v := by
  unfold metaSet
  by_cases hin : md.any (fun e => e.1 == k)
  · rw [if_pos hin]
    exact metaGet_map_replace_self k v md hin
  · rw [if_neg hin]
    apply metaGet_append_single_self
    intro e he heq
    exact hin (List.any_eq_true.2 ⟨e, he, beq_iff_eq.mpr heq⟩)

theorem metaGet_metaSet_ne (md : List (Str × MVal)) (k k2 : Str) (v : MVal)
    (h : k ≠ k2) : metaGet (metaSet md k2 v) k = metaGet md k := by
  unfold metaSet
  by_cases hin : md.any (fun e => e.1 == k2)
  · rw [if_pos hin]
    exact metaGet_map_replace_ne k k2 v h md
  · rw [if_neg hin]
    exact metaGet_append_single_ne k k2 v h md

theorem runSteps_regen (env : LoopEnv) (r0 imp : ResearchReport)
    (r1 r2 : ReviewFeedback)
    (hp : env.planR = .ok ()) (hs : env.searchR = .ok ())
    (ha : env.analysesR = .ok ()) (hg1 : env.gen1R = .ok r0)
    (hr1 : env.review1R = .ok r1) (hg2 : env.gen2R = .ok imp)
    (hr2 : env.review2R = .ok r2) (hsm : env.saveImpR = .ok ())
    (hcond : regenCondition r1) :
    runSteps env = .ok (⟨imp.title, imp.sections,
      metaSet (metaSet imp.metadata (lit "initial_review") (MVal.rev r1))
        (lit "final_review") (MVal.rev r2)⟩, 1) := by
  rw [runSteps, hp, hs, ha, hg1, hr1]
  dsimp only
  rw [if_pos hcond, hg2, hr2, hsm]

theorem runSteps_final (env : LoopEnv) (r0 : ResearchReport) (r1 : ReviewFeedback)
    (hp : env.planR = .ok ()) (hs : env.searchR = .ok ())
    (ha : env.analysesR = .ok ()) (hg1 : env.gen1R = .ok r0)
    (hr1 : env.review1R = .ok r1) (hsi : env.saveInitR = .ok ())
    (hcond : ¬regenCondition r1) :
    runSteps env = .ok (⟨r0.title, r0.sections,
      metaSet r0.metadata (lit "review") (MVal.rev r1)⟩, 0) := by
  rw [runSteps, hp, hs, ha, hg1, hr1]
  dsimp only
  rw [if_neg hcond, hsi]

theorem runSteps_count_le (env : LoopEnv) (x : ResearchReport × Nat)
    (h : runSteps env = .ok x) : x.2 ≤ 1 := by
  rw [runSteps] at h
  rcases hp : env.planR with e | u <;> rw [hp] at h <;> dsimp only at h
  · cases h
  rcases hs : env.searchR with e | u2 <;> rw [hs] at h <;> dsimp only at h
  · cases h
  rcases ha : env.analysesR with e | u3 <;> rw [ha] at h <;> dsimp only at h
  · cases h
  rcases hg1 : env.gen1R with e | r0 <;> rw [hg1] at h <;> dsimp only at h
  · cases h
  rcases hr1 : env.review1R with e | r1 <;> rw [hr1] at h <;> dsimp only at h
  · cases h
  by_cases hcond : regenCondition r1
  · rw [if_pos hcond] at h
    rcases hg2 : env.gen2R with e | imp <;> rw [hg2] at h <;> dsimp only at h
    · cases h
    rcases hr2 : env.review2R with e | r2 <;> rw [hr2] at h <;> dsimp only at h
    · cases h
    rcases hsm : env.saveImpR with e | u4 <;> rw [hsm] at h <;> dsimp only at h
    · cases h
    cases h
    exact Nat.le_refl 1
  · rw [if_neg hcond] at h
    rcases hsi : env.saveInitR with e | u4 <;> rw [hsi] at h <;> dsimp only at h
    · cases h
    cases h
    exact Nat.zero_le 1

theorem leadForward_count_le (env : LoopEnv) : (leadForward env).2 ≤ 1 := by
  rcases hrs : runSteps env with e | x
  · rw [leadForward, hrs]
    exact Nat.zero_le 1
  · rw [leadForward, hrs]
    exact runSteps_count_le env x hrs

/-- C2: with every external phase returning normally, `LeadResearcher.forward`
regenerates the report exactly when the first review's confidence score is
below 0.7 or its priority-fix list is non-empty; in that case the returned
report is the regenerated one (with both review feedbacks in its metadata),
otherwise it is the first draft with the single review attached. -/
theorem C2_regeneration_gate (env : LoopEnv) (r0 imp : ResearchReport)
    (r1 r2 : ReviewFeedback)
    (hp : env.planR = .ok ()) (hs : env.searchR = .ok ())
    (ha : env.analysesR = .ok ()) (hg1 : env.gen1R = .ok r0)
    (hr1 : env.review1R = .ok r1) (hg2 : env.gen2R = .ok imp)
    (hr2 : env.review2R = .ok r2) (hsi : env.saveInitR = .ok ())
    (hsm : env.saveImpR = .ok ()) :
    ((leadForward env).2 = 1 ↔
      (r1.confidence_score < mkRat 7 10 ∨ r1.priority_fixes ≠ [])) ∧
    ((r1.confidence_score < mkRat 7 10 ∨ r1.priority_fixes ≠ []) →
      leadForward env = (⟨imp.title, imp.sections,
        metaSet (metaSet imp.metadata (lit "initial_review") (MVal.rev r1))
          (lit "final_review") (MVal.rev r2)⟩, 1)) ∧
    (¬(r1.confidence_score < mkRat 7 10 ∨ r1.priority_fixes ≠ []) →
      leadForward env = (⟨r0.title, r0.sections,
        metaSet r0.metadata (lit "review") (MVal.rev r1)⟩, 0)) := by
  by_cases hcond : regenCondition r1
  · have hr := runSteps_regen env r0 imp r1 r2 hp hs ha hg1 hr1 hg2 hr2 hsm hcond
    have hlf : leadForward env = (⟨imp.title, imp.sections,
        metaSet (metaSet imp.metadata (lit "initial_review") (MVal.rev r1))
          (lit "final_review") (MVal.rev r2)⟩, 1) := by
      rw [leadForward, hr]
    exact ⟨⟨fun _ => hcond, fun _ => by rw [hlf]⟩, fun _ => hlf,
      fun hc => absurd hcond hc⟩
  · have hr := runSteps_final env r0 r1 hp hs ha hg1 hr1 hsi hcond
    have hlf : leadForward env = (⟨r0.title, r0.sections,
        metaSet r0.metadata (lit "review") (MVal.rev r1)⟩, 0) := by
      rw [leadForward, hr]
    refine ⟨⟨fun h1 => ?_, fun hc => absurd hc hcond⟩,
      fun hc => absurd hc hcond, fun _ => hlf⟩
    rw [hlf] at h1
    exact absurd h1 (by simp)

/-- C2 witness: a review with confidence 0.65 triggers the regeneration
branch, and a review with confidence 0.75 and no priority fixes finalizes
the first draft without regeneration. -/
theorem C2_regeneration_gate_w :
    (leadForward
      { query := lit "q", strategy := lit "s", planR := .ok (), searchR := .ok (),
        analysesR := .ok (), gen1R := .ok ⟨lit "t0", [], []⟩,
        review1R := .ok ⟨[], [], [], [], mkRat 13 20, []⟩,
        gen2R := .ok ⟨lit "t1", [], []⟩,
        review2R := .ok ⟨[], [], [], [], mkRat 1 2, []⟩,
        saveInitR := .ok (), saveImpR := .ok () }).2 = 1 ∧
    (leadForward
      { query := lit "q", strategy := lit "s", planR := .ok (), searchR := .ok (),
        analysesR := .ok (), gen1R := .ok ⟨lit "t0", [], []⟩,
        review1R := .ok ⟨[], [], [], [], mkRat 3 4, []⟩,
        gen2R := .ok ⟨lit "t1", [], []⟩,
        review2R := .ok ⟨[], [], [], [], mkRat 1 2, []⟩,
        saveInitR := .ok (), saveImpR := .ok () }).2 = 0 := by
  refine ⟨?_, ?_⟩
  · have h := C2_regeneration_gate
      { query := lit "q", strategy := lit "s", planR := .ok (), searchR := .ok (),
        analysesR := .ok (), gen1R := .ok ⟨lit "t0", [], []⟩,
        review1R := .ok ⟨[], [], [], [], mkRat 13 20, []⟩,
        gen2R := .ok ⟨lit "t1", [], []⟩,
        review2R := .ok ⟨[], [], [], [], mkRat 1 2, []⟩,
        saveInitR := .ok (), saveImpR := .ok () }
      ⟨lit "t0", [], []⟩ ⟨lit "t1", [], []⟩
      ⟨[], [], [], [], mkRat 13 20, []⟩ ⟨[], [], [], [], mkRat 1 2, []⟩
      rfl rfl rfl rfl rfl rfl rfl rfl rfl
    exact h.1.2 (Or.inl (by decide))
  · have h := C2_regeneration_gate
      { query := lit "q", strategy := lit "s", planR := .ok (), searchR := .ok (),
        analysesR := .ok (), gen1R := .ok ⟨lit "t0", [], []⟩,
        review1R := .ok ⟨[], [], [], [], mkRat 3 4, []⟩,
        gen2R := .ok ⟨lit "t1", [], []⟩,
        review2R := .ok ⟨[], [], [], [], mkRat 1 2, []⟩,
        saveInitR := .ok (), saveImpR := .ok () }
      ⟨lit "t0", [], []⟩ ⟨lit "t1", [], []⟩
      ⟨[], [], [], [], mkRat 3 4, []⟩ ⟨[], [], [], [], mkRat 1 2, []⟩
      rfl rfl rfl rfl rfl rfl rfl rfl rfl
    have h2 := h.2.2 (by
      rintro (hx | hx)
      · exact absurd hx (by decide)
      · exact hx rfl)
    rw [h2]

/-- C3: `LeadResearcher.forward` performs at most one regeneration in every
run; when the regeneration branch is taken the regenerated report is
reviewed once more, both review feedbacks are attached to the returned
report's metadata, and the regenerated report is returned with exactly one
regeneration counted no matter what the second review (an arbitrary `r2`)
contains — there is no second regeneration. -/
theorem C3_at_most_one_regeneration (env : LoopEnv) (r0 imp : ResearchReport)
    (r1 r2 : ReviewFeedback)
    (hp : env.planR = .ok ()) (hs : env.searchR = .ok ())
    (ha : env.analysesR = .ok ()) (hg1 : env.gen1R = .ok r0)
    (hr1 : env.review1R = .ok r1) (hg2 : env.gen2R = .ok imp)
    (hr2 : env.review2R = .ok r2) (hsm : env.saveImpR = .ok ())
    (hcond : r1.confidence_score < mkRat 7 10 ∨ r1.priority_fixes ≠ []) :
    (∀ env2 : LoopEnv, (leadForward env2).2 ≤ 1) ∧
    leadForward env = (⟨imp.title, imp.sections,
      metaSet (metaSet imp.metadata (lit "initial_review") (MVal.rev r1))
        (lit "final_review") (MVal.rev r2)⟩, 1) ∧
    metaGet (leadForward env).1.metadata (lit "initial_review") = some (MVal.rev r1) ∧
    metaGet (leadForward env).1.metadata (lit "final_review") = some (MVal.rev r2) := by
  have hr := runSteps_regen env r0 imp r1 r2 hp hs ha hg1 hr1 hg2 hr2 hsm hcond
  have hlf : leadForward env = (⟨imp.title, imp.sections,
      metaSet (metaSet imp.metadata (lit "initial_review") (MVal.rev r1))
        (lit "final_review") (MVal.rev r2)⟩, 1) := by
    rw [leadForward, hr]
  refine ⟨leadForward_count_le, hlf, ?_, ?_⟩
  · rw [hlf]
    have hne : lit "initial_review" ≠ lit "final_review" := by decide
    calc metaGet (metaSet (metaSet imp.metadata (lit "initial_review") (MVal.rev r1))
          (lit "final_review") (MVal.rev r2)) (lit "initial_review")
        = metaGet (metaSet imp.metadata (lit "initial_review") (MVal.rev r1))
            (lit "initial_review") :=
          metaGet_metaSet_ne _ _ _ _ hne
      _ = some (MVal.rev r1) := metaGet_metaSet_self _ _ _
  · rw [hlf]
    exact metaGet_metaSet_self _ _ _

/-- C3 witness: one regeneration with a very low second review score still
returns the regenerated report with both feedbacks attached. -/
theorem C3_at_most_one_regeneration_w :
    (leadForward
      { query := lit "q", strategy := lit "s", planR := .ok (), searchR := .ok (),
        analysesR := .ok (), gen1R := .ok ⟨lit "t0", [], []⟩,
        review1R := .ok ⟨[], [], [], [], mkRat 13 20, []⟩,
        gen2R := .ok ⟨lit "t1", [], []⟩,
        review2R := .ok ⟨[], [], [], [], mkRat 1 10, []⟩,
        saveInitR := .ok (), saveImpR := .ok () }).2 = 1 ∧
    metaGet (leadForward
      { query := lit "q", strategy := lit "s", planR := .ok (), searchR := .ok (),
        analysesR := .ok (), gen1R := .ok ⟨lit "t0", [], []⟩,
        review1R := .ok ⟨[], [], [], [], mkRat 13 20, []⟩,
        gen2R := .ok ⟨lit "t1", [], []⟩,
        review2R := .ok ⟨[], [], [], [], mkRat 1 10, []⟩,
        saveInitR := .ok (), saveImpR := .ok () }).1.metadata (lit "final_review") =
      some (MVal.rev ⟨[], [], [], [], mkRat 1 10, []⟩) := by
  have h := C3_at_most_one_regeneration
    { query := lit "q", strategy := lit "s", planR := .ok (), searchR := .ok (),
      analysesR := .ok (), gen1R := .ok ⟨lit "t0", [], []⟩,
      review1R := .ok ⟨[], [], [], [], mkRat 13 20, []⟩,
      gen2R := .ok ⟨lit "t1", [], []⟩,
      review2R := .ok ⟨[], [], [], [], mkRat 1 10, []⟩,
      saveInitR := .ok (), saveImpR := .ok () }
    ⟨lit "t0", [], []⟩ ⟨lit "t1", [], []⟩
    ⟨[], [], [], [], mkRat 13 20, []⟩ ⟨[], [], [], [], mkRat 1 10, []⟩
    rfl rfl rfl rfl rfl rfl rfl rfl (Or.inl (by decide))
  exact ⟨by rw [h.2.1], h.2.2.2⟩

/-- C4: whenever any phase of the loop raises (the run ends in `error e`),
`LeadResearcher.forward` returns the well-formed error report instead of
propagating: its title is "Research Report (Error)", it has exactly one
section, and that section's content contains the exception message. -/
theorem C4_error_reporting (env : LoopEnv) (e : Str)
    (h : runSteps env = .error e) :
    leadForward env = (errorReport env.query env.strategy e, 0) ∧
    (leadForward env).1.title = lit "Research Report (Error)" ∧
    (leadForward env).1.sections.length = 1 ∧
    ∃ pre post : Str,
      ((leadForward env).1.sections.headD ⟨[], [], [], []⟩).content =
        pre ++ e ++ post := by
  have hlf : leadForward env = (errorReport env.query env.strategy e, 0) := by
    rw [leadForward, h]
  refine ⟨hlf, by rw [hlf]; rfl, by rw [hlf]; rfl, ?_⟩
  refine ⟨lit "An error occurred while generating the report:\n                                    ",
    [], ?_⟩
  rw [hlf]
  simp [errorReport]

/-- C4 witness: a failing plan phase yields the one-section error report
containing the message. -/
theorem C4_error_reporting_w :
    leadForward
      { query := lit "q", strategy := lit "s", planR := .error (lit "boom"),
        searchR := .ok (), analysesR := .ok (), gen1R := .ok ⟨lit "t0", [], []⟩,
        review1R := .ok ⟨[], [], [], [], mkRat 1 2, []⟩,
        gen2R := .ok ⟨lit "t1", [], []⟩,
        review2R := .ok ⟨[], [], [], [], mkRat 1 2, []⟩,
        saveInitR := .ok (), saveImpR := .ok () } =
      (errorReport (lit "q") (lit "s") (lit "boom"), 0) ∧
    (leadForward
      { query := lit "q", strategy := lit "s", planR := .error (lit "boom"),
        searchR := .ok (), analysesR := .ok (), gen1R := .ok ⟨lit "t0", [], []⟩,
        review1R := .ok ⟨[], [], [], [], mkRat 1 2, []⟩,
        gen2R := .ok ⟨lit "t1", [], []⟩,
        review2R := .ok ⟨[], [], [], [], mkRat 1 2, []⟩,
        saveInitR := .ok (), saveImpR := .ok () }).1.sections.length = 1 := by
  have h := C4_error_reporting
    { query := lit "q", strategy := lit "s", planR := .error (lit "boom"),
      searchR := .ok (), analysesR := .ok (), gen1R := .ok ⟨lit "t0", [], []⟩,
      review1R := .ok ⟨[], [], [], [], mkRat 1 2, []⟩,
      gen2R := .ok ⟨lit "t1", [], []⟩,
      review2R := .ok ⟨[], [], [], [], mkRat 1 2, []⟩,
      saveInitR := .ok (), saveImpR := .ok () }
    (lit "boom") rfl
  exact ⟨h.1, h.2.2.1⟩

/-- C10: when the reviewer's response cannot be parsed, `ReviewerAgent.forward`
returns the fallback feedback with confidence score 0.0 and a non-empty
priority-fix list; a run whose first review is that fallback (all other
phases normal) therefore takes the regeneration branch. -/
theorem C10_reviewer_fallback_regenerates (e : Str) (env : LoopEnv)
    (r0 imp : ResearchReport) (r2 : ReviewFeedback)
    (hp : env.planR = .ok ()) (hs : env.searchR = .ok ())
    (ha : env.analysesR = .ok ()) (hg1 : env.gen1R = .ok r0)
    (hr1 : env.review1R = .ok (reviewerForward (.error e)))
    (hg2 : env.gen2R = .ok imp) (hr2 : env.review2R = .ok r2)
    (hsm : env.saveImpR = .ok ()) :
    (reviewerForward (.error e)).confidence_score = 0 ∧
    (reviewerForward (.error e)).priority_fixes ≠ [] ∧
    (leadForward env).2 = 1 := by
  have hcond : regenCondition (reviewerForward (.error e)) := by
    left
    show (0 : ℚ) < mkRat 7 10
    decide
  have hr := runSteps_regen env r0 imp (reviewerForward (.error e)) r2
    hp hs ha hg1 hr1 hg2 hr2 hsm hcond
  have hfb : reviewerForward (.error e) = reviewerFallback := rfl
  refine ⟨rfl, by rw [hfb]; decide, ?_⟩
  rw [leadForward, hr]

/-- C10 witness: a malformed first review response drives a concrete run
into the regeneration branch. -/
theorem C10_reviewer_fallback_regenerates_w :
    (reviewerForward (.error (lit "bad json"))).confidence_score = 0 ∧
    (reviewerForward (.error (lit "bad json"))).priority_fixes ≠ [] ∧
    (leadForward
      { query := lit "q", strategy := lit "s", planR := .ok (), searchR := .ok (),
        analysesR := .ok (), gen1R := .ok ⟨lit "t0", [], []⟩,
        review1R := .ok (reviewerForward (.error (lit "bad json"))),
        gen2R := .ok ⟨lit "t1", [], []⟩,
        review2R := .ok ⟨[], [], [], [], mkRat 9 10, []⟩,
        saveInitR := .ok (), saveImpR := .ok () }).2 = 1 :=
  C10_reviewer_fallback_regenerates (lit "bad json")
    { query := lit "q", strategy := lit "s", planR := .ok (), searchR := .ok (),
      analysesR := .ok (), gen1R := .ok ⟨lit "t0", [], []⟩,
      review1R := .ok (reviewerForward (.error (lit "bad json"))),
      gen2R := .ok ⟨lit "t1", [], []⟩,
      review2R := .ok ⟨[], [], [], [], mkRat 9 10, []⟩,
      saveInitR := .ok (), saveImpR := .ok () }
    ⟨lit "t0", [], []⟩ ⟨lit "t1", [], []⟩ ⟨[], [], [], [], mkRat 9 10, []⟩
    rfl rfl rfl rfl rfl rfl rfl rfl

theorem digitCh_toNat : ∀ d, d < 10 → (digitCh d).toNat = 48 + d := by decide

theorem charsVal_append_singleton (xs : Str) (c : Char) :
    charsVal (xs ++ [c]) = 10 * charsVal xs + (c.toNat - 48) := by
  unfold charsVal
  rw [List.foldl_append]
  rfl

theorem charsVal_natCharsF : ∀ fuel n, n < 10 ^ fuel →
    charsVal (natCharsF fuel n) = n := by
  intro fuel
  induction fuel with
  | zero =>
    intro n h
    simp at h
    subst h
    rfl
  | succ fuel ih =>
    intro n h
    rw [natCharsF]
    by_cases h10 : n < 10
    · rw [if_pos h10]
      show 10 * 0 + ((digitCh n).toNat - 48) = n
      rw [digitCh_toNat n h10]
      omega
    · rw [if_neg h10, charsVal_append_singleton]
      have hdiv : n / 10 < 10 ^ fuel := by
        rw [Nat.div_lt_iff_lt_mul (by omega)]
        calc n < 10 ^ (fuel + 1) := h
          _ = 10 ^ fuel * 10 := by ring
      rw [ih (n / 10) hdiv, digitCh_toNat (n % 10) (Nat.mod_lt n (by omega))]
      omega

theorem charsVal_natChars (n : Nat) : charsVal (natChars n) = n := by
  unfold natChars
  apply charsVal_natCharsF
  calc n < 10 ^ n := Nat.lt_pow_self (by omega) n
    _ ≤ 10 ^ (n + 1) := Nat.pow_le_pow_right (by omega) (by omega)

theorem natChars_inj (n m : Nat) (h : natChars n = natChars m) : n = m := by
  have := charsVal_natChars n
  rw [h, charsVal_natChars] at this
  omega

theorem natCharsF_digits : ∀ fuel n c, c ∈ natCharsF fuel n →
    48 ≤ c.toNat ∧ c.toNat ≤ 57 := by
  intro fuel
  induction fuel with
  | zero => intro n c h; simp [natCharsF] at h
  | succ fuel ih =>
    intro n c h
    rw [natCharsF] at h
    by_cases h10 : n < 10
    · rw [if_pos h10] at h
      have : c = digitCh n := by simpa using h
      subst this
      rw [digitCh_toNat n h10]
      omega
    · rw [if_neg h10] at h
      rcases List.mem_append.1 h with h2 | h2
      · exact ih (n / 10) c h2
      · have : c = digitCh (n % 10) := by simpa using h2
        subst this
        rw [digitCh_toNat (n % 10) (Nat.mod_lt n (by omega))]
        omega

theorem rbracket_not_mem_natChars (n : Nat) : ']' ∉ natChars n := by
  intro h
  have := natCharsF_digits (n + 1) n ']' h
  revert this
  decide

theorem append_inj_of_notin {c : Char} :
    ∀ (xs ys t1 t2 : Str), xs ++ c :: t1 = ys ++ c :: t2 →
      c ∉ xs → c ∉ ys → xs = ys := by
  intro xs
  induction xs with
  | nil =>
    intro ys t1 t2 h hx hy
    cases ys with
    | nil => rfl
    | cons y ys2 =>
      rw [List.nil_append, List.cons_append] at h
      have hcy : c = y := (List.cons.inj h).1
      exact absurd (by rw [hcy]; exact List.mem_cons_self y ys2) hy
  | cons x xs2 ih =>
    intro ys t1 t2 h hx hy
    cases ys with
    | nil =>
      rw [List.cons_append, List.nil_append] at h
      have hcx : x = c := (List.cons.inj h).1
      exact absurd (hcx ▸ List.mem_cons_self x xs2) hx
    | cons y ys2 =>
      rw [List.cons_append, List.cons_append] at h
      have h1 := (List.cons.inj h).1
      have h2 := (List.cons.inj h).2
      rw [h1]
      rw [ih ys2 t1 t2 h2 (fun hm => hx (List.mem_cons_of_mem x hm))
        (fun hm => hy (List.mem_cons_of_mem y hm))]

theorem numbered_prefix_inj (n m : Nat) (r1 r2 : Str)
    (h : '[' :: natChars n ++ ']' :: ' ' :: r1 = '[' :: natChars m ++ ']' :: ' ' :: r2) :
    n = m := by
  have h2 : natChars n ++ ']' :: (' ' :: r1) = natChars m ++ ']' :: (' ' :: r2) := by
    have := (List.cons.inj h).2
    simpa using this
  exact natChars_inj n m (append_inj_of_notin (natChars n) (natChars m) _ _ h2
    (rbracket_not_mem_natChars n) (rbracket_not_mem_natChars m))

theorem dbFindIdx_none_iff (key : Str) :
    ∀ db : List (Str × Citation),
      dbFindIdx db key = none ↔ ∀ e ∈ db, e.1 ≠ key := by
  intro db
  induction db with
  | nil => simp [dbFindIdx]
  | cons e rest ih =>
    rw [dbFindIdx]
    by_cases he : (e.1 == key) = true
    · rw [if_pos he]
      simp only [beq_iff_eq] at he
      constructor
      · intro h; cases h
      · intro h
        exact absurd he (h e (List.mem_cons_self e rest))
    · rw [if_neg he]
      simp only [beq_iff_eq] at he
      constructor
      · intro h
        have hr : dbFindIdx rest key = none := by
          cases hx : dbFindIdx rest key with
          | none => rfl
          | some i => rw [hx] at h; cases h
        intro e2 he2
        rcases List.mem_cons.1 he2 with rfl | he3
        · exact he
        · exact (ih.1 hr) e2 he3
      · intro h
        have : dbFindIdx rest key = none :=
          ih.2 (fun e2 he2 => h e2 (List.mem_cons_of_mem e he2))
        rw [this]
        rfl

theorem dbFindIdx_some_get (key : Str) :
    ∀ (db : List (Str × Citation)) (i : Nat), dbFindIdx db key = some i →
      ∃ hp : i < db.length, (db.get ⟨i, hp⟩).1 = key := by
  intro db
  induction db with
  | nil => intro i h; cases h
  | cons e rest ih =>
    intro i h
    rw [dbFindIdx] at h
    by_cases he : (e.1 == key) = true
    · rw [if_pos he] at h
      cases h
      exact ⟨by simp, beq_iff_eq.mp he⟩
    · rw [if_neg he] at h
      cases hx : dbFindIdx rest key with
      | none => rw [hx] at h; cases h
      | some j =>
        rw [hx] at h
        have hij : i = j + 1 := by
          have := h.symm
          simpa using this
        subst hij
        rcases ih j hx with ⟨hp, hget⟩
        exact ⟨by simpa using Nat.succ_lt_succ hp, by simpa using hget⟩

theorem dbFindIdx_of_get (key : Str) :
    ∀ (db : List (Str × Citation)), keysNodup db →
      ∀ (p : Nat) (hp : p < db.length), (db.get ⟨p, hp⟩).1 = key →
        dbFindIdx db key = some p := by
  intro db
  induction db with
  | nil => intro _ p hp; simp at hp
  | cons e rest ih =>
    intro hnd p hp hget
    rw [dbFindIdx]
    match p with
    | 0 =>
      have : e.1 = key := hget
      rw [if_pos (beq_iff_eq.mpr this)]
    | p+1 =>
      have hget2 : (rest.get ⟨p, by simpa using hp⟩).1 = key := hget
      have hnd2 : keysNodup rest := by
        unfold keysNodup at hnd ⊢
        rw [List.map_cons] at hnd
        exact (List.nodup_cons.1 hnd).2
      have hne : (e.1 == key) = false := by
        rw [beq_eq_false_iff_ne]
        intro he
        unfold keysNodup at hnd
        rw [List.map_cons] at hnd
        have hkmem : key ∈ rest.map Prod.fst := by
          rw [← hget2]
          exact List.mem_map.2 ⟨rest.get ⟨p, by simpa using hp⟩, rest.get_mem _ _, rfl⟩
        exact (List.nodup_cons.1 hnd).1 (he ▸ hkmem)
      rw [hne]
      simp only [Bool.false_eq_true, if_false]
      rw [ih hnd2 p (by simpa using hp) hget2]
      rfl

theorem dbGet_of_get (key : Str) :
    ∀ (db : List (Str × Citation)) (p : Nat) (hp : p < db.length),
      keysNodup db → (db.get ⟨p, hp⟩).1 = key →
      dbGet db key = some (db.get ⟨p, hp⟩).2 := by
  intro db
  induction db with
  | nil => intro p hp; simp at hp
  | cons e rest ih =>
    intro p hp hnd hget
    unfold dbGet
    rw [List.find?_cons]
    match p with
    | 0 =>
      have : e.1 = key := hget
      rw [beq_iff_eq.mpr this]
      rfl
    | p+1 =>
      have hget2 : (rest.get ⟨p, by simpa using hp⟩).1 = key := hget
      have hnd2 : keysNodup rest := by
        unfold keysNodup at hnd ⊢
        rw [List.map_cons] at hnd
        exact (List.nodup_cons.1 hnd).2
      have hne : (e.1 == key) = false := by
        rw [beq_eq_false_iff_ne]
        intro he
        unfold keysNodup at hnd
        rw [List.map_cons] at hnd
        have hkmem : key ∈ rest.map Prod.fst := by
          rw [← hget2]
          exact List.mem_map.2 ⟨rest.get ⟨p, by simpa using hp⟩, rest.get_mem _ _, rfl⟩
        exact (List.nodup_cons.1 hnd).1 (he ▸ hkmem)
      rw [hne]
      have := ih p (by simpa using hp) hnd2 hget2
      unfold dbGet at this
      exact this

theorem formatReference_shape (style : Str) (db : List (Str × Citation))
    (title : Str) (authors : List Str) (year : Int) (url : Str) :
    ∃ rest, formatReference style db title authors year url =
      '[' :: natChars (match dbFindIdx db (citationKeyOf authors year) with
        | some i => i + 1
        | none => db.length + 1) ++ ']' :: ' ' :: rest := by
  unfold formatReference
  by_cases hstyle : (style == lit "apa") = true
  · rw [if_pos hstyle]
    refine ⟨authorsStr style authors ++ lit ". (" ++ intChars year ++ lit "). " ++
      title ++ lit ". " ++ urlTextOf url, ?_⟩
    simp [List.append_assoc]
  · rw [if_neg hstyle]
    refine ⟨authorsStr style authors ++ lit ". " ++ intChars year ++ lit ". \"" ++
      title ++ lit ".\" " ++ urlTextOf url, ?_⟩
    simp [List.append_assoc]

theorem dbInv_preserved (style : Str) (nowYear : Int)
    (db : List (Str × Citation)) (r : SearchResult)
    (h : keysNodup db ∧ DbNumbered db ∧ KeysConsistent db) :
    keysNodup (processSearchResult style nowYear db r) ∧
    DbNumbered (processSearchResult style nowYear db r) ∧
    KeysConsistent (processSearchResult style nowYear db r) := by
  obtain ⟨hnd, hnum, hcons⟩ := h
  unfold processSearchResult
  by_cases hblank : ((r.content.getD []).all isSpaceCh) = true
  · rw [if_pos hblank]
    exact ⟨hnd, hnum, hcons⟩
  · rw [if_neg hblank]
    set authors := r.authors.getD [lit "Unknown Author"] with hauthors
    set year := r.year.getD nowYear with hyear
    set key := citationKeyOf authors year with hkey
    set url := if validUrl (r.url.getD []) then r.url.getD [] else [] with hurl
    set title := r.title.getD (lit "Untitled") with htitle
    set cit : Citation := ⟨title, authors, year, url, r.doi, r.content.getD [], key,
      formatReference style db title authors year url⟩ with hcit
    show keysNodup (dbSet db key cit) ∧ DbNumbered (dbSet db key cit) ∧
      KeysConsistent (dbSet db key cit)
    unfold dbSet
    by_cases hany : (db.any (fun e => e.1 == key)) = true
    · rw [if_pos hany]
      rcases List.any_eq_true.1 hany with ⟨e0, he0, he0k⟩
      rw [beq_iff_eq] at he0k
      have hkeys : (db.map (fun e => if e.1 == key then (e.1, cit) else e)).map Prod.fst =
          db.map Prod.fst := by
        rw [List.map_map]
        apply List.map_congr_left
        intro e _
        by_cases he : (e.1 == key) = true
        · rw [Function.comp_apply, if_pos he]
        · rw [Function.comp_apply, if_neg he]
      refine ⟨?_, ?_, ?_⟩
      · unfold keysNodup
        rw [hkeys]
        exact hnd
      · intro p hp
        have hp2 : p < db.length := by simpa using hp
        have hget : (db.map (fun e => if e.1 == key then (e.1, cit) else e)).get ⟨p, hp⟩ =
            (fun e => if e.1 == key then (e.1, cit) else e) (db.get ⟨p, hp2⟩) := by
          rw [List.get_map]
        by_cases hpk : ((db.get ⟨p, hp2⟩).1 == key) = true
        · have hidx : dbFindIdx db key = some p :=
            dbFindIdx_of_get key db hnd p hp2 (beq_iff_eq.mp hpk)
          rcases formatReference_shape style db title authors year url with ⟨rest, hshape⟩
          refine ⟨rest, ?_⟩
          rw [hget]
          dsimp only
          rw [if_pos hpk]
          show cit.reference = _
          rw [hcit]
          show formatReference style db title authors year url = _
          rw [hshape, ← hkey, hidx]
        · rcases hnum p hp2 with ⟨rest, hrest⟩
          refine ⟨rest, ?_⟩
          rw [hget]
          dsimp only
          rw [if_neg hpk]
          exact hrest
      · intro e he
        rcases List.mem_map.1 he with ⟨e2, he2, he2e⟩
        by_cases hek : (e2.1 == key) = true
        · rw [if_pos hek] at he2e
          rw [← he2e]
          show cit.citation_key = e2.1
          rw [hcit]
          show key = e2.1
          exact (beq_iff_eq.mp hek).symm
        · rw [if_neg hek] at he2e
          rw [← he2e]
          exact hcons e2 he2
    · rw [if_neg hany]
      have hnone : dbFindIdx db key = none := by
        rw [dbFindIdx_none_iff]
        intro e he hek
        exact hany (List.any_eq_true.2 ⟨e, he, beq_iff_eq.mpr hek⟩)
      have hknotin : key ∉ db.map Prod.fst := by
        intro hmem
        rcases List.mem_map.1 hmem with ⟨e, he, hek⟩
        exact ((dbFindIdx_none_iff key db).1 hnone) e he hek
      refine ⟨?_, ?_, ?_⟩
      · unfold keysNodup
        rw [List.map_append]
        rw [List.nodup_append]
        refine ⟨hnd, by simp, ?_⟩
        intro x hx
        simp only [List.map_cons, List.map_nil, List.mem_singleton]
        intro hxk
        exact hknotin (hxk ▸ hx)
      · intro p hp
        have hlen : (db ++ [(key, cit)]).length = db.length + 1 := by simp
        by_cases hpd : p < db.length
        · rcases hnum p hpd with ⟨rest, hrest⟩
          refine ⟨rest, ?_⟩
          have hget : ((db ++ [(key, cit)]).get ⟨p, hp⟩) = db.get ⟨p, hpd⟩ := by
            rw [List.get_append_left]
          rw [hget]
          exact hrest
        · have hpeq : p = db.length := by
            rw [hlen] at hp
            omega
          subst hpeq
          rcases formatReference_shape style db title authors year url with ⟨rest, hshape⟩
          refine ⟨rest, ?_⟩
          have hget : ((db ++ [(key, cit)]).get ⟨db.length, hp⟩) = (key, cit) := by
            simp
          rw [hget]
          show cit.reference = _
          rw [hcit]
          show formatReference style db title authors year url = _
          rw [hshape, ← hkey, hnone]
      · intro e he
        rcases List.mem_append.1 he with he2 | he2
        · exact hcons e he2
        · have : e = (key, cit) := by simpa using he2
          rw [this]

theorem processAll_inv (style : Str) (nowYear : Int) (results : List SearchResult) :
    keysNodup (results.foldl (processSearchResult style nowYear) []) ∧
    DbNumbered (results.foldl (processSearchResult style nowYear) []) ∧
    KeysConsistent (results.foldl (processSearchResult style nowYear) []) := by
  apply foldl_preserve (fun db => keysNodup db ∧ DbNumbered db ∧ KeysConsistent db)
  · refine ⟨by simp [keysNodup], ?_, ?_⟩
    · intro p hp
      simp at hp
    · intro e he
      simp at he
  · intro db r _ h
    exact dbInv_preserved style nowYear db r h

theorem processSentence_snd (db : List (Str × Citation)) (acc : List Str × List Str)
    (s : Str) :
    (processSentence db acc s).2 = (matchingEntries db s).foldl
      (fun ks e => if ks.contains e.1 then ks else ks ++ [e.1]) acc.2 := by
  unfold processSentence
  dsimp only
  split <;> rfl

theorem refKeys_inv (db : List (Str × Citation)) (acc0 : List Str)
    (entries : List (Str × Citation)) (hsub : ∀ e ∈ entries, e ∈ db)
    (h1 : acc0.Nodup) (h2 : ∀ k ∈ acc0, k ∈ db.map Prod.fst) :
    (entries.foldl (fun ks e => if ks.contains e.1 then ks else ks ++ [e.1]) acc0).Nodup ∧
    ∀ k ∈ entries.foldl (fun ks e => if ks.contains e.1 then ks else ks ++ [e.1]) acc0,
      k ∈ db.map Prod.fst := by
  apply foldl_preserve
    (fun ks : List Str => ks.Nodup ∧ ∀ k ∈ ks, k ∈ db.map Prod.fst)
  · exact ⟨h1, h2⟩
  · intro ks e he hks
    by_cases hc : ks.contains e.1
    · rw [if_pos hc]
      exact hks
    · rw [if_neg hc]
      constructor
      · rw [List.nodup_append]
        refine ⟨hks.1, by simp, ?_⟩
        intro x hx
        simp only [List.mem_singleton]
        intro hxe
        have : e.1 ∉ ks := by simpa using hc
        exact this (hxe ▸ hx)
      · intro k hk
        rcases List.mem_append.1 hk with hk2 | hk2
        · exact hks.2 k hk2
        · have : k = e.1 := by simpa using hk2
          rw [this]
          exact List.mem_map.2 ⟨e, hsub e he, rfl⟩

theorem matchingEntries_subset (db : List (Str × Citation)) (s : Str) :
    ∀ e ∈ matchingEntries db s, e ∈ db := by
  intro e he
  unfold matchingEntries at he
  exact List.mem_of_mem_filter he

theorem addCitations_refKeys (db : List (Str × Citation)) (content : Str) :
    (addCitationsToContent db content).2.Nodup ∧
    ∀ k ∈ (addCitationsToContent db content).2, k ∈ db.map Prod.fst := by
  unfold addCitationsToContent
  dsimp only
  have main : ∀ (sentences : List Str) (acc : List Str × List Str),
      acc.2.Nodup → (∀ k ∈ acc.2, k ∈ db.map Prod.fst) →
      ((sentences.foldl (processSentence db) acc).2.Nodup ∧
       ∀ k ∈ (sentences.foldl (processSentence db) acc).2, k ∈ db.map Prod.fst) := by
    intro sentences
    induction sentences with
    | nil => intro acc hn hm; exact ⟨hn, hm⟩
    | cons s rest ih =>
      intro acc hn hm
      rw [List.foldl_cons]
      apply ih
      · rw [processSentence_snd]
        exact (refKeys_inv db acc.2 (matchingEntries db s)
          (matchingEntries_subset db s) hn hm).1
      · rw [processSentence_snd]
        exact (refKeys_inv db acc.2 (matchingEntries db s)
          (matchingEntries_subset db s) hn hm).2
  exact main (splitSentences content) ([], []) List.nodup_nil (fun k hk => absurd hk (List.not_mem_nil k))

theorem strLeB_total : ∀ a b : Str, strLeB a b = true ∨ strLeB b a = true := by
  intro a
  induction a with
  | nil => intro b; left; rfl
  | cons x xs ih =>
    intro b
    cases b with
    | nil => right; rfl
    | cons y ys =>
      rw [strLeB, strLeB]
      by_cases h1 : x.toNat < y.toNat
      · left; rw [if_pos h1]
      · by_cases h2 : y.toNat < x.toNat
        · right; rw [if_pos h2]
        · rw [if_neg h1, if_neg h2, if_neg h2, if_neg h1]
          exact ih ys

theorem strLeB_trans : ∀ a b c : Str,
    strLeB a b = true → strLeB b c = true → strLeB a c = true := by
  intro a
  induction a with
  | nil => intro b c _ _; rfl
  | cons x xs ih =>
    intro b c hab hbc
    cases b with
    | nil => rw [strLeB] at hab; cases hab
    | cons y ys =>
      cases c with
      | nil => rw [strLeB] at hbc; cases hbc
      | cons z zs =>
        rw [strLeB] at hab hbc ⊢
        by_cases hxy : x.toNat < y.toNat
        · rw [if_pos hxy] at hab
          by_cases hyz : y.toNat < z.toNat
          · rw [if_pos (Nat.lt_trans hxy hyz)]
          · rw [if_neg hyz] at hbc
            by_cases hzy : z.toNat < y.toNat
            · rw [if_pos hzy] at hbc; cases hbc
            · have hyzeq : y.toNat = z.toNat :=
                Nat.le_antisymm (Nat.not_lt.mp hzy) (Nat.not_lt.mp hyz)
              rw [if_pos (hyzeq ▸ hxy)]
        · rw [if_neg hxy] at hab
          by_cases hyx : y.toNat < x.toNat
          · rw [if_pos hyx] at hab; cases hab
          · rw [if_neg hyx] at hab
            have hxyeq : x.toNat = y.toNat :=
              Nat.le_antisymm (Nat.not_lt.mp hyx) (Nat.not_lt.mp hxy)
            by_cases hyz : y.toNat < z.toNat
            · rw [if_pos (hxyeq.symm ▸ hyz)]
            · rw [if_neg hyz] at hbc
              by_cases hzy : z.toNat < y.toNat
              · rw [if_pos hzy] at hbc; cases hbc
              · rw [if_neg hzy] at hbc
                have hxz : ¬ x.toNat < z.toNat := by rw [hxyeq]; exact hyz
                have hzx : ¬ z.toNat < x.toNat := by rw [hxyeq]; exact hzy
                rw [if_neg hxz, if_neg hzx]
                exact ih ys zs hab hbc

theorem dbGet_of_mem_keys (db : List (Str × Citation)) (hnd : keysNodup db) (k : Str)
    (hk : k ∈ db.map Prod.fst) :
    ∃ (p : Nat) (hp : p < db.length), (db.get ⟨p, hp⟩).1 = k ∧
      dbGet db k = some (db.get ⟨p, hp⟩).2 := by
  obtain ⟨e, he, hek⟩ := List.mem_map.1 hk
  obtain ⟨⟨p, hp⟩, hgetp⟩ := List.mem_iff_get.1 he
  refine ⟨p, hp, ?_, ?_⟩
  · rw [hgetp]; exact hek
  · exact dbGet_of_get k db p hp hnd (by rw [hgetp]; exact hek)

theorem dbGet_key (db : List (Str × Citation)) (hnd : keysNodup db)
    (hcons : KeysConsistent db) (k : Str) (hk : k ∈ db.map Prod.fst) :
    ∃ c, dbGet db k = some c ∧ c.citation_key = k := by
  obtain ⟨p, hp, hkey, hget⟩ := dbGet_of_mem_keys db hnd k hk
  refine ⟨(db.get ⟨p, hp⟩).2, hget, ?_⟩
  rw [hcons (db.get ⟨p, hp⟩) (db.get_mem p hp)]
  exact hkey

theorem reference_inj_of_keys (db : List (Str × Citation))
    (hnd : keysNodup db) (hnum : DbNumbered db) (k1 k2 : Str)
    (hk1 : k1 ∈ db.map Prod.fst) (hk2 : k2 ∈ db.map Prod.fst)
    (c1 c2 : Citation) (h1 : dbGet db k1 = some c1) (h2 : dbGet db k2 = some c2)
    (href : c1.reference = c2.reference) : k1 = k2 := by
  obtain ⟨p1, hp1, hkey1, hget1⟩ := dbGet_of_mem_keys db hnd k1 hk1
  obtain ⟨p2, hp2, hkey2, hget2⟩ := dbGet_of_mem_keys db hnd k2 hk2
  have hc1 : c1 = (db.get ⟨p1, hp1⟩).2 := Option.some.inj (h1.symm.trans hget1)
  have hc2 : c2 = (db.get ⟨p2, hp2⟩).2 := Option.some.inj (h2.symm.trans hget2)
  obtain ⟨r1, hr1⟩ := hnum p1 hp1
  obtain ⟨r2, hr2⟩ := hnum p2 hp2
  have heq : '[' :: natChars (p1 + 1) ++ ']' :: ' ' :: r1 =
      '[' :: natChars (p2 + 1) ++ ']' :: ' ' :: r2 := by
    rw [← hr1, ← hr2, ← hc1, ← hc2, href]
  have hpp : p1 + 1 = p2 + 1 := numbered_prefix_inj _ _ r1 r2 heq
  have hp : p1 = p2 := Nat.succ.inj hpp
  rw [← hkey1, ← hkey2]
  subst hp
  rfl

theorem perm_count_eq {l1 l2 : List Str} (h : l1.Perm l2) (a : Str) :
    l1.count a = l2.count a :=
  h.countP_eq (fun x => x == a)

theorem count_eq_one_of_mem_nodup : ∀ (l : List Str) (a : Str),
    l.Nodup → a ∈ l → l.count a = 1 := by
  intro l
  induction l with
  | nil => intro a _ ha; cases ha
  | cons x xs ih =>
    intro a hnd ha
    rcases List.mem_cons.1 ha with rfl | hmem
    · rw [List.count_cons, if_pos (beq_self_eq_true a)]
      have hx : xs.count a = 0 := List.count_eq_zero.2 (List.nodup_cons.1 hnd).1
      rw [hx]
    · have hne : (x == a) = false := by
        rw [beq_eq_false_iff_ne]
        intro h
        exact (List.nodup_cons.1 hnd).1 (h ▸ hmem)
      rw [List.count_cons, if_neg (by rw [hne]; exact Bool.false_ne_true)]
      rw [ih a (List.nodup_cons.1 hnd).2 hmem]

/-- C6: the reference list returned by `CitationAgent.forward` has exactly one
entry per distinct referenced citation key — the kept citations carry pairwise
distinct keys, the reference list is a permutation of their formatted
references, and each such reference occurs in it exactly once, no matter how
many sentences cited the source — and it is sorted lexicographically by the
formatted reference text (Python string `<=`), not by citation number.
The hypothesis restricts to runs on which Python completes: a search result
with an explicitly empty author list makes `_generate_citation_key`'s
`authors[0]` raise, so `forward` returns nothing on such inputs. -/
theorem C6_reference_list (content : Str) (results : List SearchResult)
    (style : Str) (nowYear : Int)
    (hA : ∀ r ∈ results, r.authors ≠ some []) :
    (citationForward content results style nowYear).reference_list.Sorted
      (fun x y : Str => strLeB x y = true) ∧
    ((citationForward content results style nowYear).citations.map
      Citation.citation_key).Nodup ∧
    (citationForward content results style nowYear).reference_list.Perm
      ((citationForward content results style nowYear).citations.map
        Citation.reference) ∧
    ∀ c ∈ (citationForward content results style nowYear).citations,
      (citationForward content results style nowYear).reference_list.count
        c.reference = 1 := by
  obtain ⟨hnd, hnum, hcons⟩ := processAll_inv style nowYear results
  obtain ⟨hkeysnd, hkeyssub⟩ := addCitations_refKeys
    (results.foldl (processSearchResult style nowYear) []) content
  have hcit : (citationForward content results style nowYear).citations =
      (addCitationsToContent (results.foldl (processSearchResult style nowYear) [])
        content).2.map
        (fun k => (dbGet (results.foldl (processSearchResult style nowYear) []) k).getD
          ⟨[], [], 0, [], none, [], [], []⟩) := rfl
  have hrl : (citationForward content results style nowYear).reference_list =
      List.insertionSort (fun x y : Str => strLeB x y = true)
        (((citationForward content results style nowYear).citations).map
          (fun c => c.reference)) := rfl
  have hrefsnd : (((citationForward content results style nowYear).citations).map
      (fun c => c.reference)).Nodup := by
    rw [hcit, List.map_map]
    apply List.Nodup.map_on ?_ hkeysnd
    intro k1 hk1 k2 hk2 heq
    obtain ⟨c1, hc1, _⟩ := dbGet_key _ hnd hcons k1 (hkeyssub k1 hk1)
    obtain ⟨c2, hc2, _⟩ := dbGet_key _ hnd hcons k2 (hkeyssub k2 hk2)
    dsimp only [Function.comp] at heq
    rw [hc1, hc2] at heq
    simp only [Option.getD_some] at heq
    exact reference_inj_of_keys _ hnd hnum k1 k2 (hkeyssub k1 hk1)
      (hkeyssub k2 hk2) c1 c2 hc1 hc2 heq
  refine ⟨?_, ?_, ?_, ?_⟩
  · rw [hrl]
    exact @List.sorted_insertionSort Str (fun x y : Str => strLeB x y = true)
      (fun a b => inferInstance) ⟨strLeB_total⟩
      ⟨fun a b c => strLeB_trans a b c⟩ _
  · rw [hcit, List.map_map]
    have hpt : ∀ k ∈ (addCitationsToContent
        (results.foldl (processSearchResult style nowYear) []) content).2,
        (Citation.citation_key ∘ fun k =>
          (dbGet (results.foldl (processSearchResult style nowYear) []) k).getD
            ⟨[], [], 0, [], none, [], [], []⟩) k = id k := by
      intro k hk
      obtain ⟨c, hc, hck⟩ := dbGet_key _ hnd hcons k (hkeyssub k hk)
      dsimp only [Function.comp, id]
      rw [hc]
      simp only [Option.getD_some]
      exact hck
    rw [List.map_congr_left hpt, List.map_id]
    exact hkeysnd
  · rw [hrl]
    exact List.perm_insertionSort _ _
  · intro c hc
    have hperm : (citationForward content results style nowYear).reference_list.Perm
        (((citationForward content results style nowYear).citations).map
          (fun c => c.reference)) := by
      rw [hrl]
      exact List.perm_insertionSort _ _
    rw [perm_count_eq hperm c.reference]
    exact count_eq_one_of_mem_nodup _ _ hrefsnd (List.mem_map.2 ⟨c, hc, rfl⟩)

/-- C6 witness: the reference-list properties instantiated on a concrete run
with two referenced sources, one of which carries three authors. -/
theorem C6_reference_list_w :
    (∀ r ∈ c6Results, r.authors ≠ some []) ∧
    ((citationForward c6Content c6Results (lit "chicago") 2025).reference_list.Sorted
        (fun x y : Str => strLeB x y = true) ∧
      ((citationForward c6Content c6Results (lit "chicago") 2025).citations.map
        Citation.citation_key).Nodup ∧
      (citationForward c6Content c6Results (lit "chicago") 2025).reference_list.Perm
        ((citationForward c6Content c6Results (lit "chicago") 2025).citations.map
          Citation.reference) ∧
      ∀ c ∈ (citationForward c6Content c6Results (lit "chicago") 2025).citations,
        (citationForward c6Content c6Results (lit "chicago") 2025).reference_list.count
          c.reference = 1) :=
  ⟨by decide, C6_reference_list c6Content c6Results (lit "chicago") 2025 (by decide)⟩
